import Mathlib

/-!
Verification of the StreamSense incremental recognizer core.

Shallow embedding of the engine's components, translated from the
TypeScript source: the text buffer (`buffer.ts`), the entity store
(`store.ts`), the plugin runner's result merging (`runner.ts`), the
event emitter (`emitter.ts`), the scheduler (`scheduler.ts`) and the
recognizer composition root (`recognizer.ts`).

Strings are modelled as `List Char` (slice/length over UTF-16 code
units becomes drop/take over the list).  Machine numbers used as
counters, cursors and sizes are `Nat`.  Confidence scores are `ℚ`
(only compared for equality here).  Plugin `value` payloads are a type
parameter `V` with decidable equality, standing for deep /
stable-serialization equality of the JSON payload.
-/

namespace StreamSense

/-- Half-open character interval, `types.ts` `Span`.  The source field
`end` is not a legal Lean identifier; it is rendered `end_`. -/
structure Span where
  start : Nat
  end_ : Nat
deriving DecidableEq, Repr

/-- `types.ts` `EntityKind`. -/
inductive EntityKind where
  | quantity | datetime | email | phone | url | person | place | custom
deriving DecidableEq, Repr

/-- `types.ts` `EntityStatus`. -/
inductive EntityStatus where
  | provisional | confirmed
deriving DecidableEq, Repr

/-- `types.ts` `EntityCandidate`: the plugin output record, an entity
without an `id`. -/
structure EntityCandidate (V : Type) where
  key : String
  kind : EntityKind
  span : Span
  text : List Char
  value : V
  confidence : ℚ
  status : EntityStatus
deriving DecidableEq, Repr

/-- `types.ts` `Entity`: a stored candidate augmented with the
engine-generated `id`.  Ids are modelled by the numeric value of the
monotonic counter (the source renders them as the string `ent_<n>`). -/
structure Entity (V : Type) extends EntityCandidate V where
  id : Nat
deriving DecidableEq, Repr

/-! ### Association lists with JavaScript `Map` semantics

`Map.set` replaces in place when the key is present (preserving
insertion order) and appends otherwise; `Map.delete` removes the
entry; iteration follows insertion order. -/

/-- `Map.get`. -/
def lookupA {α β : Type} [DecidableEq α] (k : α) : List (α × β) → Option β
  | [] => none
  | (k', v) :: rest => if k' = k then some v else lookupA k rest

/-- `Map.set`: replace in place or append. -/
def setA {α β : Type} [DecidableEq α] (k : α) (v : β) : List (α × β) → List (α × β)
  | [] => [(k, v)]
  | (k', v') :: rest => if k' = k then (k, v) :: rest else (k', v') :: setA k v rest

/-- `Map.delete`. -/
def eraseA {α β : Type} [DecidableEq α] (k : α) : List (α × β) → List (α × β)
  | [] => []
  | (k', v') :: rest => if k' = k then rest else (k', v') :: eraseA k rest

/-! ### Store (`store.ts`) -/

/-- `store.ts` `StoreChange`. -/
structure StoreChange (V : Type) where
  added : List (Entity V)
  updated : List (Entity V)
  removed : List (Entity V)
deriving DecidableEq, Repr

/-- The mutable state captured by `createStore`: the two maps, plus the
id counter.  In the source `entityIdCounter` is a module-global
variable shared by all stores; for a single store's history it behaves
exactly as a per-store monotone counter, which is how it is modelled
here.  `generateId` returns `ent_<++counter>`, modelled as the number
`counter + 1`. -/
structure StoreState (V : Type) where
  entitiesById : List (Nat × Entity V)
  keyToId : List (String × Nat)
  counter : Nat
deriving DecidableEq, Repr

/-- The empty store with the id counter at its initial value 0. -/
def initStore (V : Type) : StoreState V := ⟨[], [], 0⟩

/-- Whether `upsert` treats a candidate as changed relative to the
stored entity: the disjunction tested in `store.ts` (`span.start`,
`span.end`, `confidence`, `status`, `JSON.stringify(value)`). -/
def fieldsChanged {V : Type} [DecidableEq V] (existing : Entity V)
    (candidate : EntityCandidate V) : Bool :=
  existing.span.start ≠ candidate.span.start ∨
  existing.span.end_ ≠ candidate.span.end_ ∨
  existing.confidence ≠ candidate.confidence ∨
  existing.status ≠ candidate.status ∨
  existing.value ≠ candidate.value

/-- The body of `upsert`'s `for` loop, written as structural recursion
over the candidate list; the accumulated `added`/`updated` arrays of
the loop become the returned lists.  When the key is present the
stored entity is fetched (`entitiesById.get(existingId)!`; the `none`
branch is unreachable in consistent states and modelled as a no-op)
and the entity is rewritten and pushed to `updated` only under
`fieldsChanged`.  When the key is absent a fresh id is minted and the
entity inserted. -/
def upsertList {V : Type} [DecidableEq V] (s : StoreState V) :
    List (EntityCandidate V) → List (Entity V) × List (Entity V) × StoreState V
  | [] => ([], [], s)
  | candidate :: rest =>
    match lookupA candidate.key s.keyToId with
    | some existingId =>
      match lookupA existingId s.entitiesById with
      | some existing =>
        let updatedEntity : Entity V := { toEntityCandidate := candidate, id := existingId }
        if fieldsChanged existing candidate then
          let s1 : StoreState V :=
            { s with entitiesById := setA existingId updatedEntity s.entitiesById }
          let r := upsertList s1 rest
          (r.1, updatedEntity :: r.2.1, r.2.2)
        else
          upsertList s rest
      | none => upsertList s rest
    | none =>
      let id := s.counter + 1
      let newEntity : Entity V := { toEntityCandidate := candidate, id := id }
      let s1 : StoreState V :=
        { entitiesById := setA id newEntity s.entitiesById
          keyToId := setA candidate.key id s.keyToId
          counter := id }
      let r := upsertList s1 rest
      (newEntity :: r.1, r.2.1, r.2.2)

/-- `store.ts` `upsert`. -/
def upsert {V : Type} [DecidableEq V] (s : StoreState V)
    (candidates : List (EntityCandidate V)) : StoreChange V × StoreState V :=
  let r := upsertList s candidates
  (⟨r.1, r.2.1, []⟩, r.2.2)

/-- `store.ts` `removeByKeys`, recursion over the key list. -/
def removeByKeys {V : Type} (s : StoreState V) :
    List String → List (Entity V) × StoreState V
  | [] => ([], s)
  | key :: rest =>
    match lookupA key s.keyToId with
    | some id =>
      match lookupA id s.entitiesById with
      | some entity =>
        let s1 : StoreState V :=
          { s with entitiesById := eraseA id s.entitiesById
                   keyToId := eraseA key s.keyToId }
        let r := removeByKeys s1 rest
        (entity :: r.1, r.2)
      | none => removeByKeys s rest
    | none => removeByKeys s rest

/-- `store.ts` `removeById`. -/
def removeById {V : Type} (s : StoreState V) (id : Nat) :
    Option (Entity V) × StoreState V :=
  match lookupA id s.entitiesById with
  | some entity =>
    (some entity,
      { s with entitiesById := eraseA id s.entitiesById
               keyToId := eraseA entity.key s.keyToId })
  | none => (none, s)

/-- `store.ts` `computeRemovals`: keys of the store not in the current
candidate key set, in `keyToId` iteration order. -/
def computeRemovals {V : Type} (s : StoreState V) (currentKeys : List String) :
    List String :=
  (s.keyToId.map Prod.fst).filter (fun k => decide (k ∉ currentKeys))

/-- `store.ts` `reconcile`: remove stale keys, then upsert. -/
def reconcile {V : Type} [DecidableEq V] (s : StoreState V)
    (candidates : List (EntityCandidate V)) : StoreChange V × StoreState V :=
  let currentKeys := candidates.map (fun c => c.key)
  let keysToRemove := computeRemovals s currentKeys
  let r1 := removeByKeys s keysToRemove
  let r2 := upsert r1.2 candidates
  (⟨r2.1.added, r2.1.updated, r1.1⟩, r2.2)

/-- `store.ts` `confirmAll`: promote every provisional entity in map
iteration order, rewriting the map entry in place. -/
def confirmAll {V : Type} (s : StoreState V) :
    List (Entity V) × StoreState V :=
  let confirmed :=
    (s.entitiesById.filter (fun p => p.2.status = EntityStatus.provisional)).map
      (fun p => { p.2 with status := EntityStatus.confirmed })
  let entitiesById' :=
    s.entitiesById.map (fun p =>
      if p.2.status = EntityStatus.provisional then
        (p.1, { p.2 with status := EntityStatus.confirmed })
      else p)
  (confirmed, { s with entitiesById := entitiesById' })

/-- `store.ts` `clear`. -/
def clear {V : Type} (s : StoreState V) : StoreState V :=
  { s with entitiesById := [], keyToId := [] }

/-- `store.ts` `getByKey`. -/
def getByKey {V : Type} (s : StoreState V) (key : String) : Option (Entity V) :=
  match lookupA key s.keyToId with
  | some id => lookupA id s.entitiesById
  | none => none

/-- `store.ts` `getAll`: values of `entitiesById` in insertion order. -/
def getAll {V : Type} (s : StoreState V) : List (Entity V) :=
  s.entitiesById.map Prod.snd

/-- The store's public mutating operations, for reasoning about
arbitrary call histories. -/
inductive StoreOp (V : Type) where
  | upsert (candidates : List (EntityCandidate V))
  | removeByKeys (keys : List String)
  | removeById (id : Nat)
  | reconcile (candidates : List (EntityCandidate V))
  | confirmAll
  | clear
deriving DecidableEq, Repr

/-- Apply one store operation (discarding the returned diff). -/
def applyOp {V : Type} [DecidableEq V] (op : StoreOp V) (s : StoreState V) :
    StoreState V :=
  match op with
  | .upsert cs => (upsert s cs).2
  | .removeByKeys ks => (removeByKeys s ks).2
  | .removeById id => (removeById s id).2
  | .reconcile cs => (reconcile s cs).2
  | .confirmAll => (confirmAll s).2
  | .clear => clear s

/-- Run a sequence of store operations from a state. -/
def runOpsFrom {V : Type} [DecidableEq V] (s : StoreState V) :
    List (StoreOp V) → StoreState V
  | [] => s
  | op :: rest => runOpsFrom (applyOp op s) rest

/-- Run a sequence of store operations from the initial store. -/
def runOps {V : Type} [DecidableEq V] (ops : List (StoreOp V)) : StoreState V :=
  runOpsFrom (initStore V) ops

/-- All ids referenced by a store state (map keys of `entitiesById`,
id values of `keyToId`, and ids of stored entities). -/
def usedIds {V : Type} (s : StoreState V) : List Nat :=
  s.entitiesById.map Prod.fst ++ s.keyToId.map Prod.snd ++
    s.entitiesById.map (fun p => p.2.id)

/-- The store's documented invariants: `keyToId` has no duplicate keys
and maps distinct keys to distinct ids, `entitiesById` has no duplicate
ids, and every id in use is bounded by the counter (ids are minted by
incrementing it). -/
def StoreWF {V : Type} (s : StoreState V) : Prop :=
  (s.keyToId.map Prod.fst).Nodup ∧
  (s.keyToId.map Prod.snd).Nodup ∧
  (s.entitiesById.map Prod.fst).Nodup ∧
  ∀ i ∈ usedIds s, i ≤ s.counter

instance {V : Type} (s : StoreState V) : Decidable (StoreWF s) :=
  inferInstanceAs (Decidable (_ ∧ _ ∧ _ ∧ ∀ i ∈ usedIds s, i ≤ s.counter))

/-! ### Buffer (`buffer.ts`) -/

/-- `buffer.ts` `BufferState`. -/
structure BufferState where
  text : List Char
  revision : Nat
  cursor : Nat
deriving DecidableEq, Repr

/-- `buffer.ts` `Window`. -/
structure Window where
  text : List Char
  offset : Nat
deriving DecidableEq, Repr

/-- The initial buffer state of `createBuffer` (also the `reset`
state). -/
def initBuffer : BufferState := ⟨[], 0, 0⟩

/-- `buffer.ts` `update(text, cursor?)`: replace the state and bump the
revision when the text changed (cursor defaulting to `text.length`),
else update the cursor alone when a different one is supplied.
Returns `hasChanged`. -/
def bufferUpdate (s : BufferState) (text : List Char) (cursor : Option Nat) :
    Bool × BufferState :=
  let hasChanged := text ≠ s.text
  if hasChanged then
    (true, ⟨text, s.revision + 1, cursor.getD text.length⟩)
  else
    match cursor with
    | some c => if c ≠ s.cursor then (false, { s with cursor := c }) else (false, s)
    | none => (false, s)

/-- `buffer.ts` `getWindow()`.  `Math.max(0, cursor - halfWindow)` over
non-negative numbers is truncated subtraction, as is
`Math.max(0, text.length - windowSize)`; `text.slice(start, end)` is
`(drop start).take (end - start)`.  The two boundary adjustments are
applied in source order: the second tests the `end` value possibly
rewritten by the first. -/
def getWindow (windowSize : Nat) (s : BufferState) : Window :=
  let text := s.text
  let cursor := s.cursor
  let halfWindow := windowSize / 2
  let start0 := cursor - halfWindow
  let end0 := min text.length (cursor + halfWindow)
  let end1 := if start0 = 0 then min text.length windowSize else end0
  let start1 := if end1 = text.length then text.length - windowSize else start0
  ⟨(text.drop start1).take (end1 - start1), start1⟩

/-! ### Runner result merging (`runner.ts`) -/

/-- `types.ts` `PluginResult`; the optional arrays are modelled as
`Option` (absent = `undefined`). -/
structure PluginResult (V : Type) where
  upsert : Option (List (EntityCandidate V))
  remove : Option (List String)
deriving DecidableEq, Repr

/-- JavaScript `Set.add`: append when absent, keep insertion order. -/
def setAdd {α : Type} [DecidableEq α] (x : α) (l : List α) : List α :=
  if x ∈ l then l else l ++ [x]

/-- Process a single `PluginResult` into the accumulating
`(upsertMap, removeSet)` pair: first all upserts (`Map.set`, later
entries overriding), then all removals (`Set.add` plus
`Map.delete`). -/
def mergeOne {V : Type} (acc : List (String × EntityCandidate V) × List String)
    (result : PluginResult V) : List (String × EntityCandidate V) × List String :=
  let m1 :=
    match result.upsert with
    | some l => l.foldl (fun m c => setA c.key c m) acc.1
    | none => acc.1
  match result.remove with
  | some ks => ks.foldl (fun p k => (eraseA k p.1, setAdd k p.2)) (m1, acc.2)
  | none => (m1, acc.2)

/-- `runner.ts` `mergeResults`: fold all results, then return the map
values and the accumulated remove set. -/
def mergeResults {V : Type} (results : List (PluginResult V)) : PluginResult V :=
  let (upsertMap, removeSet) := results.foldl mergeOne ([], [])
  ⟨some (upsertMap.map Prod.snd), some removeSet⟩

/-- The last candidate with key `k` in a candidate list (rightmost
occurrence), used to state the merge contract. -/
def lastWithKey {V : Type} (k : String) : List (EntityCandidate V) →
    Option (EntityCandidate V)
  | [] => none
  | c :: rest =>
    match lastWithKey k rest with
    | some c' => some c'
    | none => if c.key = k then some c else none

/-- The last candidate upserted for key `k` across a result list in
processing order. -/
def lastUpsert {V : Type} (k : String) (results : List (PluginResult V)) :
    Option (EntityCandidate V) :=
  lastWithKey k (results.flatMap (fun r => r.upsert.getD []))

/-- No result upserts a key that an earlier result removed (the
side condition under which `mergeResults`'s upsert and remove lists
are disjoint). -/
def noReupsert {V : Type} : List (PluginResult V) → Prop
  | [] => True
  | r :: rest =>
    (∀ k ∈ r.remove.getD [], ∀ r' ∈ rest,
      k ∉ (r'.upsert.getD []).map (fun c => c.key)) ∧ noReupsert rest

instance noReupsertDecidable {V : Type} :
    ∀ results : List (PluginResult V), Decidable (noReupsert results)
  | [] => .isTrue trivial
  | _ :: rest =>
    haveI := noReupsertDecidable rest
    inferInstanceAs (Decidable (_ ∧ _))

/-! ### Emitter (`emitter.ts`) -/

/-- The three event channels. -/
inductive Channel where
  | entity | remove | diagnostic
deriving DecidableEq, Repr

/-- Channel names as used in diagnostic messages. -/
def channelName : Channel → String
  | .entity => "entity"
  | .remove => "remove"
  | .diagnostic => "diagnostic"

/-- `types.ts` `DiagnosticEvent` (the `span` field is omitted by every
emit site modelled here and dropped). -/
structure DiagnosticEvent where
  severity : String
  message : String
  source : Option String
deriving DecidableEq, Repr

/-- Event payloads, the union of the three channel event types. -/
inductive EventData (V : Type) where
  | entity (entity : Entity V) (isUpdate : Bool)
  | remove (id : Nat) (key : String)
  | diag (d : DiagnosticEvent)
deriving DecidableEq, Repr

/-- The channel an event payload belongs to (the TypeScript emitter is
typed so that `emit(channel, data)` only accepts `data` of the
channel's event type). -/
def channelOf {V : Type} : EventData V → Channel
  | .entity _ _ => .entity
  | .remove _ _ => .remove
  | .diag _ => .diagnostic

/-- Listener registry of `createEmitter`: one JavaScript `Set` per
channel, modelled as duplicate-free insertion-ordered lists of handler
identities (function references are opaque; a `Nat` stands for a
reference). -/
structure EmitterState where
  entity : List Nat
  remove : List Nat
  diagnostic : List Nat
deriving DecidableEq, Repr

/-- The emitter's initial (empty) registry. -/
def initEmitter : EmitterState := ⟨[], [], []⟩

/-- The listener set of a channel. -/
def getListeners (s : EmitterState) : Channel → List Nat
  | .entity => s.entity
  | .remove => s.remove
  | .diagnostic => s.diagnostic

/-- Replace the listener set of a channel. -/
def setListeners (s : EmitterState) : Channel → List Nat → EmitterState
  | .entity, l => { s with entity := l }
  | .remove, l => { s with remove := l }
  | .diagnostic, l => { s with diagnostic := l }

/-- `emitter.ts` `on`: `Set.add`. -/
def emitterOn (s : EmitterState) (event : Channel) (handler : Nat) : EmitterState :=
  setListeners s event (setAdd handler (getListeners s event))

/-- `emitter.ts` `off`: `Set.delete`. -/
def emitterOff (s : EmitterState) (event : Channel) (handler : Nat) : EmitterState :=
  setListeners s event ((getListeners s event).erase handler)

/-- `emitter.ts` `listenerCount`. -/
def listenerCount (s : EmitterState) (event : Channel) : Nat :=
  (getListeners s event).length

/-- `emitter.ts` `removeAllListeners` (with a channel argument). -/
def removeAllListeners (s : EmitterState) (event : Channel) : EmitterState :=
  setListeners s event []

/-- A handler's observable behaviour on an invocation: `none` when it
returns normally, `some msg` when it throws an error rendered as
`msg`. -/
def HandlerBehavior (V : Type) : Type := Nat → EventData V → Option String

/-- The diagnostic event the emitter's `catch` block constructs for an
error thrown by a handler of `event`. -/
def handlerErrorDiag {V : Type} (event : Channel) (msg : String) : EventData V :=
  .diag ⟨"error", "Error in " ++ channelName event ++ " handler: " ++ msg,
         some "emitter"⟩

/-- Invoke a list of handlers in order on `data`, recording each
invocation as a `(handler, data)` pair; when a handler throws,
`onError` yields the additional invocations the `catch` block causes. -/
def dispatch {V : Type} (beh : HandlerBehavior V) (hs : List Nat)
    (data : EventData V) (onError : String → List (Nat × EventData V)) :
    List (Nat × EventData V) :=
  hs.flatMap (fun h =>
    (h, data) :: (match beh h data with
      | some msg => onError msg
      | none => []))

/-- `emitter.ts` `emit`, as the trace of handler invocations it
performs.  A throwing handler on a non-`diagnostic` channel triggers
`this.emit('diagnostic', …)`; inside that inner emit, a throwing
diagnostic handler falls into the `event !== 'diagnostic'` test, which
is false, so the error is swallowed — the inner dispatch's error
continuation is empty, terminating the source's self-call at depth
one. -/
def emit {V : Type} (beh : HandlerBehavior V) (s : EmitterState)
    (event : Channel) (data : EventData V) : List (Nat × EventData V) :=
  dispatch beh (getListeners s event) data (fun msg =>
    if event = .diagnostic then []
    else dispatch beh s.diagnostic (handlerErrorDiag event msg) (fun _ => []))

/-! ### Scheduler (`scheduler.ts`)

The two `setTimeout` handles are modelled by pending flags; a timer
can elapse only while pending, and elapsing runs the body of the
source's timeout callback, whose guards are copied verbatim —
`isDestroyed || isComposing` for the realtime timer, `isDestroyed`
alone for the commit timer. -/

/-- Scheduler state. -/
structure SchedState where
  realtimeTimer : Bool
  commitTimer : Bool
  isComposing : Bool
  isDestroyed : Bool
deriving DecidableEq, Repr

/-- The scheduler's initial state. -/
def initSched : SchedState := ⟨false, false, false, false⟩

/-- Which callback a step invoked. -/
inductive Fire where
  | realtime | commit
deriving DecidableEq, Repr

/-- `scheduler.ts` `scheduleAnalysis`: no-op when destroyed or
composing, else rearm both timers. -/
def scheduleAnalysis (s : SchedState) : SchedState :=
  if s.isDestroyed ∨ s.isComposing then s
  else { s with realtimeTimer := true, commitTimer := true }

/-- `scheduler.ts` `setComposing`: set the flag, and rearm via
`scheduleAnalysis` when clearing it. -/
def setComposing (s : SchedState) (composing : Bool) : SchedState :=
  let s1 := { s with isComposing := composing }
  if composing then s1 else scheduleAnalysis s1

/-- Observable scheduler transitions: the public operations plus the
elapsing of each armed timer. -/
inductive SchedAction where
  | scheduleAnalysis
  | forceCommit
  | setComposing (composing : Bool)
  | realtimeElapse
  | commitElapse
  | cancel
  | destroy
deriving DecidableEq, Repr

/-- One scheduler step, returning the list of callbacks invoked by it.
`realtimeElapse`/`commitElapse` fire only a pending timer and run the
corresponding timeout callback, with the guards of `scheduler.ts`
(`isDestroyed || isComposing` before `onRealtime`, `isDestroyed` alone
before `onCommit`).  `forceCommit` clears both timers and invokes the
commit callback unless destroyed. -/
def schedStep (a : SchedAction) (s : SchedState) : SchedState × List Fire :=
  match a with
  | .scheduleAnalysis => (scheduleAnalysis s, [])
  | .forceCommit =>
    if s.isDestroyed then (s, [])
    else ({ s with realtimeTimer := false, commitTimer := false }, [.commit])
  | .setComposing c => (setComposing s c, [])
  | .realtimeElapse =>
    if s.realtimeTimer then
      let s1 := { s with realtimeTimer := false }
      if s.isDestroyed ∨ s.isComposing then (s1, []) else (s1, [.realtime])
    else (s, [])
  | .commitElapse =>
    if s.commitTimer then
      let s1 := { s with commitTimer := false }
      if s.isDestroyed then (s1, []) else (s1, [.commit])
    else (s, [])
  | .cancel => ({ s with realtimeTimer := false, commitTimer := false }, [])
  | .destroy =>
    ({ s with isDestroyed := true, realtimeTimer := false, commitTimer := false }, [])

/-- Run a sequence of scheduler actions, accumulating, for each
callback invocation, the composing flag in force at the moment it was
invoked. -/
def runSched (s : SchedState) : List SchedAction → List (Fire × Bool)
  | [] => []
  | a :: rest =>
    let (s1, fires) := schedStep a s
    fires.map (fun f => (f, s.isComposing)) ++ runSched s1 rest

/-! ### Recognizer (`recognizer.ts`) -/

/-- `types.ts` `PluginContext` without the `mode` discriminant, as
built by the recognizer's `buildContext` and passed to the runner.
`onEntity` and `signal` are the optional `PluginContextExtensions`
fields; the object literal in `buildContext` omits both, so they
default to `none`.  An abort signal is a flag record. -/
structure AbortSignal where
  aborted : Bool
deriving DecidableEq, Repr

/-- The context record built by `recognizer.ts` `buildContext`. -/
structure PluginContextBase (V : Type) where
  text : List Char
  window : Window
  entities : List (Entity V)
  cursor : Nat
  onEntity : Option (EntityCandidate V → Unit) := none
  signal : Option AbortSignal := none

/-- `recognizer.ts` `buildContext`: the object literal
`{ text, window, entities: store.getAll(), cursor }` — no `onEntity`,
no `signal`. -/
def buildContext {V : Type} (windowSize : Nat) (buffer : BufferState)
    (store : StoreState V) : PluginContextBase V :=
  { text := buffer.text
    window := getWindow windowSize buffer
    entities := getAll store
    cursor := buffer.cursor }

/-- `types.ts` `FeedInput`: `meta.composing` is the only `meta` field,
so `meta` is modelled as `Option Bool`. -/
structure FeedInput where
  text : List Char
  cursor : Option Nat
  meta : Option Bool
deriving DecidableEq, Repr

/-- The recognizer state components touched by `feed`. -/
structure RecState where
  buffer : BufferState
  sched : SchedState
  isDestroyed : Bool
deriving DecidableEq, Repr

/-- The initial recognizer state of `createRecognizer`. -/
def initRec : RecState := ⟨initBuffer, initSched, false⟩

/-- `recognizer.ts` `feed`: no-op when destroyed; when
`meta.composing` is present update the scheduler's composing flag and,
when becoming composing, return before touching the buffer; otherwise
update the buffer and schedule analysis if the text changed. -/
def feed (r : RecState) (input : FeedInput) : RecState :=
  if r.isDestroyed then r
  else
    let step : RecState → RecState := fun r1 =>
      let (changed, b) := bufferUpdate r1.buffer input.text input.cursor
      let r2 := { r1 with buffer := b }
      if changed then { r2 with sched := scheduleAnalysis r2.sched } else r2
    match input.meta with
    | some composing =>
      let r1 := { r with sched := setComposing r.sched composing }
      if composing then r1 else step r1
    | none => step r

/-- `recognizer.ts` `state().text` (the text component of the
snapshot). -/
def stateText (r : RecState) : List Char :=
  r.buffer.text

/-! ## Theorems -/

/-- C1 counterexample: on a fresh recognizer, a `feed` whose
`meta.composing` is `true` returns before `buffer.update`, so
`state().text` is still the empty buffer, not the fed text. -/
theorem C1_counterexample :
    stateText (feed initRec ⟨"10 km".toList, none, some true⟩) ≠ "10 km".toList := by
  decide

/-- C1 (amended): for every feed on a non-destroyed recognizer whose
`meta.composing` is not `true`, after `feed` returns `state().text`
equals the fed text; a feed whose `meta.composing` is `true` returns
without touching the buffer, leaving `state().text` unchanged. -/
theorem C1_feed_text (r : RecState) (input : FeedInput)
    (hd : r.isDestroyed = false) :
    (input.meta ≠ some true → stateText (feed r input) = input.text) ∧
    (input.meta = some true → stateText (feed r input) = stateText r) := by
  obtain ⟨text, cursor, meta⟩ := input
  constructor
  · intro hm
    simp only [feed, hd, Bool.false_eq_true, if_false, stateText, bufferUpdate]
    match meta with
    | some true => exact absurd rfl hm
    | some false =>
      by_cases hc : text = r.buffer.text
      · simp only [hc]
        cases cursor with
        | none => simp [setComposing, scheduleAnalysis]
        | some c =>
          by_cases hcur : c = ((setComposing r.sched false, r).2.buffer).cursor <;>
            simp_all [setComposing, scheduleAnalysis]
      · simp [hc]
    | none =>
      by_cases hc : text = r.buffer.text
      · simp only [hc]
        cases cursor with
        | none => simp
        | some c => by_cases hcur : c = r.buffer.cursor <;> simp_all
      · simp [hc]
  · intro hm
    subst hm
    simp [feed, hd, stateText]

/-- C1 witness: the amended theorem evaluated at a fresh recognizer:
a plain feed sets the text, a composing feed leaves it empty. -/
theorem C1_witness :
    stateText (feed initRec ⟨"a".toList, none, none⟩) = "a".toList ∧
    stateText (feed initRec ⟨"b".toList, none, some true⟩) = stateText initRec :=
  ⟨(C1_feed_text initRec ⟨"a".toList, none, none⟩ rfl).1 (by decide),
   (C1_feed_text initRec ⟨"b".toList, none, some true⟩ rfl).2 rfl⟩

/-- C2 counterexample: the context `buildContext` hands to the runner
carries neither an `onEntity` callback nor an `AbortSignal` — both
optional fields are absent at a concrete build. -/
theorem C2_counterexample :
    (buildContext (V := Nat) 500 initBuffer (initStore Nat)).onEntity = none ∧
    (buildContext (V := Nat) 500 initBuffer (initStore Nat)).signal = none :=
  ⟨rfl, rfl⟩

/-- C2 (amended): for every realtime or commit pass, the context the
recognizer builds carries only `text`, `window`, `entities` and
`cursor`; `onEntity` and `signal` are always absent, and the
recognizer maintains no abort controller, so no previous pass's signal
is ever aborted. -/
theorem C2_context_fields {V : Type} (windowSize : Nat) (buffer : BufferState)
    (store : StoreState V) :
    (buildContext windowSize buffer store).onEntity = none ∧
    (buildContext windowSize buffer store).signal = none ∧
    (buildContext windowSize buffer store).text = buffer.text ∧
    (buildContext windowSize buffer store).window = getWindow windowSize buffer ∧
    (buildContext windowSize buffer store).entities = getAll store ∧
    (buildContext windowSize buffer store).cursor = buffer.cursor :=
  ⟨rfl, rfl, rfl, rfl, rfl, rfl⟩

/-- C3 counterexample: arm the timers, enter composition, and let the
commit timer elapse: the commit callback is invoked while
`isComposing` is `true`. -/
theorem C3_counterexample :
    runSched initSched [.scheduleAnalysis, .setComposing true, .commitElapse] =
      [(Fire.commit, true)] := by
  decide

/-- C3 (amended): while `isComposing` is true, the realtime timer's
elapse invokes no callback and `scheduleAnalysis` is a no-op, but a
commit timer armed before composition began still invokes the commit
callback when it elapses during composition, unless destroyed. -/
theorem C3_composing_gate (s : SchedState) (hc : s.isComposing = true) :
    (schedStep .realtimeElapse s).2 = [] ∧
    scheduleAnalysis s = s ∧
    (schedStep .commitElapse s).2 =
      (if s.commitTimer = true ∧ s.isDestroyed = false then [Fire.commit] else []) := by
  obtain ⟨rt, ct, comp, des⟩ := s
  cases comp with
  | false => cases hc
  | true =>
    cases rt
    all_goals cases ct
    all_goals cases des
    all_goals decide

/-- C3 witness: the amended theorem evaluated at the state reached in
the counterexample trace (both timers armed, composing). -/
theorem C3_witness :
    (schedStep .realtimeElapse ⟨true, true, true, false⟩).2 = [] ∧
    scheduleAnalysis ⟨true, true, true, false⟩ = ⟨true, true, true, false⟩ ∧
    (schedStep .commitElapse ⟨true, true, true, false⟩).2 =
      (if (true : Bool) = true ∧ (false : Bool) = false then [Fire.commit] else []) :=
  C3_composing_gate ⟨true, true, true, false⟩ rfl

/-- C4 counterexample: window size 5 (odd), a ten-character buffer,
cursor 5 (in range, away from both boundaries): the returned window
has length 4, not `min 5 10 = 5`, although a length-5 substring
containing the cursor exists (offset 3). -/
theorem C4_counterexample :
    (getWindow 5 ⟨"0123456789".toList, 0, 5⟩).text.length = 4 ∧
    min 5 ("0123456789".toList).length = 5 ∧
    (5 : Nat) ≤ ("0123456789".toList).length ∧
    3 + 5 ≤ ("0123456789".toList).length ∧ (3 : Nat) ≤ 5 ∧ (5 : Nat) ≤ 3 + 5 := by
  decide

/-- C4 (amended): for every buffer text, window size `W` and cursor in
`[0, |text|]`, `getWindow` returns a substring of the buffer occupying
`[offset, offset + |s|) ⊆ [0, |text|]` with
`offset ≤ cursor ≤ offset + |s|`; its length is `min W |text|`
whenever the cursor is within `⌊W/2⌋` of either end of the text, and
`2·⌊W/2⌋` otherwise (so exactly `min W |text|` for even `W`, and one
less than `W` for odd `W` away from the boundaries). -/
theorem C4_window_contract (W : Nat) (text : List Char) (rev c : Nat)
    (hc : c ≤ text.length) :
    (getWindow W ⟨text, rev, c⟩).offset + (getWindow W ⟨text, rev, c⟩).text.length ≤
      text.length ∧
    (getWindow W ⟨text, rev, c⟩).text =
      (text.drop (getWindow W ⟨text, rev, c⟩).offset).take
        (getWindow W ⟨text, rev, c⟩).text.length ∧
    (getWindow W ⟨text, rev, c⟩).offset ≤ c ∧
    c ≤ (getWindow W ⟨text, rev, c⟩).offset + (getWindow W ⟨text, rev, c⟩).text.length ∧
    ((c ≤ W / 2 ∨ text.length ≤ c + W / 2) →
      (getWindow W ⟨text, rev, c⟩).text.length = min W text.length) ∧
    (¬(c ≤ W / 2 ∨ text.length ≤ c + W / 2) →
      (getWindow W ⟨text, rev, c⟩).text.length = 2 * (W / 2)) := by
  dsimp only [getWindow]
  split_ifs with h1 h2 h3
  all_goals refine ⟨?_, ?_, ?_, ?_, fun h => ?_, fun h => ?_⟩
  all_goals
    first
      | omega
      | (simp only [List.length_take, List.length_drop]; omega)
      | (simp only [List.length_take, List.length_drop]; congr 1; omega)

/-- C4 witness: the amended theorem evaluated at window size 4 on a
ten-character buffer with the cursor at 5: the window is the four
characters `"3456"` at offset 3. -/
theorem C4_witness :
    (getWindow 4 ⟨"0123456789".toList, 0, 5⟩).offset +
        (getWindow 4 ⟨"0123456789".toList, 0, 5⟩).text.length ≤
      ("0123456789".toList).length ∧
    (getWindow 4 ⟨"0123456789".toList, 0, 5⟩).text =
      (("0123456789".toList).drop (getWindow 4 ⟨"0123456789".toList, 0, 5⟩).offset).take
        (getWindow 4 ⟨"0123456789".toList, 0, 5⟩).text.length ∧
    (getWindow 4 ⟨"0123456789".toList, 0, 5⟩).offset ≤ 5 ∧
    5 ≤ (getWindow 4 ⟨"0123456789".toList, 0, 5⟩).offset +
        (getWindow 4 ⟨"0123456789".toList, 0, 5⟩).text.length ∧
    ((5 ≤ 4 / 2 ∨ ("0123456789".toList).length ≤ 5 + 4 / 2) →
      (getWindow 4 ⟨"0123456789".toList, 0, 5⟩).text.length =
        min 4 ("0123456789".toList).length) ∧
    (¬(5 ≤ 4 / 2 ∨ ("0123456789".toList).length ≤ 5 + 4 / 2) →
      (getWindow 4 ⟨"0123456789".toList, 0, 5⟩).text.length = 2 * (4 / 2)) :=
  C4_window_contract 4 ("0123456789".toList) 0 5 (by decide)

/-! ### Association list lemmas -/

section AssocLemmas

variable {α β : Type} [DecidableEq α]

theorem lookupA_eq_none {k : α} {l : List (α × β)}
    (h : k ∉ l.map Prod.fst) : lookupA k l = none := by
  induction l with
  | nil => rfl
  | cons p rest ih =>
    obtain ⟨k', v'⟩ := p
    simp only [List.map_cons, List.mem_cons] at h
    push_neg at h
    simp only [lookupA]
    rw [if_neg (fun he => h.1 he.symm)]
    exact ih h.2

theorem lookupA_setA_self (k : α) (v : β) (l : List (α × β)) :
    lookupA k (setA k v l) = some v := by
  induction l with
  | nil => simp [setA, lookupA]
  | cons p rest ih =>
    obtain ⟨k', v'⟩ := p
    by_cases h : k' = k
    · simp [setA, lookupA, h]
    · simp only [setA]
      rw [if_neg h]
      simp only [lookupA]
      rw [if_neg h]
      exact ih

theorem lookupA_setA_ne {k' k : α} (hne : k' ≠ k) (v : β) (l : List (α × β)) :
    lookupA k (setA k' v l) = lookupA k l := by
  induction l with
  | nil =>
    simp only [setA, lookupA]
    rw [if_neg hne]
  | cons p rest ih =>
    obtain ⟨k'', v''⟩ := p
    by_cases h : k'' = k'
    · subst h
      simp [setA, lookupA, hne]
    · simp only [setA]
      rw [if_neg h]
      simp only [lookupA]
      by_cases h2 : k'' = k
      · rw [if_pos h2, if_pos h2]
      · rw [if_neg h2, if_neg h2]
        exact ih

theorem lookupA_eraseA_ne {k' k : α} (hne : k' ≠ k) (l : List (α × β)) :
    lookupA k (eraseA k' l) = lookupA k l := by
  induction l with
  | nil => rfl
  | cons p rest ih =>
    obtain ⟨k'', v''⟩ := p
    by_cases h : k'' = k'
    · subst h
      simp [eraseA, lookupA, hne]
    · simp only [eraseA]
      rw [if_neg h]
      simp only [lookupA]
      by_cases h2 : k'' = k
      · rw [if_pos h2, if_pos h2]
      · rw [if_neg h2, if_neg h2]
        exact ih

theorem eraseA_sublist (k : α) (l : List (α × β)) : (eraseA k l).Sublist l := by
  induction l with
  | nil => simp [eraseA]
  | cons p rest ih =>
    obtain ⟨k', v'⟩ := p
    by_cases h : k' = k
    · simp only [eraseA]
      rw [if_pos h]
      exact List.sublist_cons_self _ _
    · simp only [eraseA]
      rw [if_neg h]
      exact ih.cons₂ _

theorem keys_nodup_eraseA (k : α) {l : List (α × β)}
    (h : (l.map Prod.fst).Nodup) : ((eraseA k l).map Prod.fst).Nodup :=
  ((eraseA_sublist k l).map Prod.fst).nodup h

theorem lookupA_eraseA_self (k : α) {l : List (α × β)}
    (h : (l.map Prod.fst).Nodup) : lookupA k (eraseA k l) = none := by
  induction l with
  | nil => rfl
  | cons p rest ih =>
    obtain ⟨k', v'⟩ := p
    simp only [List.map_cons, List.nodup_cons] at h
    by_cases hk : k' = k
    · subst hk
      simp only [eraseA]
      simpa using lookupA_eq_none h.1
    · simp only [eraseA]
      rw [if_neg hk]
      simp only [lookupA]
      rw [if_neg hk]
      exact ih h.2

theorem keys_setA (k : α) (v : β) (l : List (α × β)) :
    (setA k v l).map Prod.fst =
      if k ∈ l.map Prod.fst then l.map Prod.fst else l.map Prod.fst ++ [k] := by
  induction l with
  | nil => simp [setA]
  | cons p rest ih =>
    obtain ⟨k', v'⟩ := p
    by_cases h : k' = k
    · subst h
      simp [setA]
    · simp only [setA]
      rw [if_neg h]
      simp only [List.map_cons, ih]
      by_cases hmem : k ∈ rest.map Prod.fst
      · rw [if_pos hmem, if_pos (by simp [List.mem_cons, hmem])]
      · have hnc : ¬ k ∈ k' :: rest.map Prod.fst := by
          simp only [List.mem_cons]
          rintro (rfl | hc)
          · exact h rfl
          · exact hmem hc
        rw [if_neg hmem, if_neg hnc]
        rfl

theorem keys_nodup_setA (k : α) (v : β) {l : List (α × β)}
    (h : (l.map Prod.fst).Nodup) : ((setA k v l).map Prod.fst).Nodup := by
  rw [keys_setA]
  by_cases hmem : k ∈ l.map Prod.fst
  · rwa [if_pos hmem]
  · rw [if_neg hmem]
    refine List.Nodup.append h (List.nodup_singleton k) ?_
    intro a ha hb
    rw [List.mem_singleton] at hb
    subst hb
    exact hmem ha

theorem lookupA_isSome_iff (k : α) (l : List (α × β)) :
    (lookupA k l).isSome ↔ k ∈ l.map Prod.fst := by
  induction l with
  | nil => simp [lookupA]
  | cons p rest ih =>
    obtain ⟨k', v'⟩ := p
    simp only [lookupA, List.map_cons, List.mem_cons]
    by_cases h : k' = k
    · rw [if_pos h]
      simp [h.symm]
    · rw [if_neg h]
      rw [ih]
      exact ⟨Or.inr, fun hc => hc.elim (fun he => absurd he.symm h) id⟩

theorem mem_of_lookupA {k : α} {v : β} {l : List (α × β)}
    (h : lookupA k l = some v) : (k, v) ∈ l := by
  induction l with
  | nil => cases h
  | cons p rest ih =>
    obtain ⟨k', v'⟩ := p
    simp only [lookupA] at h
    by_cases hk : k' = k
    · rw [if_pos hk] at h
      injection h with hv
      subst hk
      subst hv
      exact List.mem_cons_self _ _
    · rw [if_neg hk] at h
      exact List.mem_cons_of_mem _ (ih h)

theorem lookupA_of_mem_nodup {k : α} {v : β} {l : List (α × β)}
    (hnd : (l.map Prod.fst).Nodup) (hmem : (k, v) ∈ l) :
    lookupA k l = some v := by
  induction l with
  | nil => cases hmem
  | cons p rest ih =>
    obtain ⟨k', v'⟩ := p
    simp only [List.map_cons, List.nodup_cons] at hnd
    rcases List.mem_cons.mp hmem with heq | hmem'
    · have h1 : k' = k := (congrArg Prod.fst heq).symm
      have h2 : v' = v := (congrArg Prod.snd heq).symm
      subst h1
      subst h2
      simp [lookupA]
    · by_cases hk : k' = k
      · subst hk
        exact absurd (List.mem_map_of_mem Prod.fst hmem') hnd.1
      · simp only [lookupA]
        rw [if_neg hk]
        exact ih hnd.2 hmem'

theorem lookupA_none_iff (k : α) (l : List (α × β)) :
    lookupA k l = none ↔ k ∉ l.map Prod.fst := by
  rw [← lookupA_isSome_iff]
  cases lookupA k l <;> simp

theorem lookupA_eraseA_of_none {k k' : α} {l : List (α × β)}
    (h : lookupA k l = none) : lookupA k (eraseA k' l) = none := by
  rw [lookupA_none_iff] at h ⊢
  intro hm
  exact h (((eraseA_sublist k' l).map Prod.fst).subset hm)

theorem mem_setA {p : α × β} {k : α} {v : β} {l : List (α × β)}
    (h : p ∈ setA k v l) : p = (k, v) ∨ p ∈ l := by
  induction l with
  | nil => simpa [setA] using h
  | cons q rest ih =>
    obtain ⟨k', v'⟩ := q
    by_cases hk : k' = k
    · simp only [setA] at h
      rw [if_pos hk] at h
      rcases List.mem_cons.mp h with rfl | hm
      · exact Or.inl rfl
      · exact Or.inr (List.mem_cons_of_mem _ hm)
    · simp only [setA] at h
      rw [if_neg hk] at h
      rcases List.mem_cons.mp h with rfl | hm
      · exact Or.inr (List.mem_cons_self _ _)
      · rcases ih hm with hl | hl
        · exact Or.inl hl
        · exact Or.inr (List.mem_cons_of_mem _ hl)

theorem mem_setAdd {x y : α} {l : List α} : x ∈ setAdd y l ↔ x ∈ l ∨ x = y := by
  unfold setAdd
  by_cases h : y ∈ l
  · rw [if_pos h]
    exact ⟨Or.inl, fun hc => hc.elim id (fun he => he ▸ h)⟩
  · rw [if_neg h]
    simp [List.mem_append]

theorem setA_of_not_mem {k : α} (v : β) {l : List (α × β)}
    (h : k ∉ l.map Prod.fst) : setA k v l = l ++ [(k, v)] := by
  induction l with
  | nil => rfl
  | cons p rest ih =>
    obtain ⟨k', v'⟩ := p
    simp only [List.map_cons, List.mem_cons] at h
    push_neg at h
    simp only [setA]
    rw [if_neg (fun he => h.1 he.symm), List.cons_append, ih h.2]

end AssocLemmas

theorem snd_nodup_inj {α β : Type} {a b : α} {x : β} {l : List (α × β)}
    (hnd : (l.map Prod.snd).Nodup) (ha : (a, x) ∈ l) (hb : (b, x) ∈ l) :
    a = b := by
  induction l with
  | nil => cases ha
  | cons p rest ih =>
    obtain ⟨k', v'⟩ := p
    simp only [List.map_cons, List.nodup_cons] at hnd
    rcases List.mem_cons.mp ha with heq | ha'
    · rcases List.mem_cons.mp hb with heq' | hb'
      · have e1 : a = k' := congrArg Prod.fst heq
        have e2 : b = k' := congrArg Prod.fst heq'
        rw [e1, e2]
      · exfalso
        have hx : x = v' := congrArg Prod.snd heq
        exact hnd.1 (hx ▸ List.mem_map_of_mem Prod.snd hb')
    · rcases List.mem_cons.mp hb with heq' | hb'
      · exfalso
        have hx : x = v' := congrArg Prod.snd heq'
        exact hnd.1 (hx ▸ List.mem_map_of_mem Prod.snd ha')
      · exact ih hnd.2 ha' hb'

/-! ### Store lemmas -/

section StoreLemmas

variable {V : Type}

theorem usedIds_bound_iff {s : StoreState V} {n : Nat} :
    (∀ i ∈ usedIds s, i ≤ n) ↔
      ((∀ p ∈ s.entitiesById, p.1 ≤ n ∧ p.2.id ≤ n) ∧
        ∀ q ∈ s.keyToId, q.2 ≤ n) := by
  unfold usedIds
  constructor
  · intro h
    refine ⟨fun p hp => ⟨?_, ?_⟩, fun q hq => ?_⟩
    · exact h _ (List.mem_append_left _
        (List.mem_append_left _ (List.mem_map_of_mem Prod.fst hp)))
    · exact h _ (List.mem_append_right _
        (List.mem_map_of_mem (fun p => p.2.id) hp))
    · exact h _ (List.mem_append_left _
        (List.mem_append_right _ (List.mem_map_of_mem Prod.snd hq)))
  · rintro ⟨h1, h2⟩ i hi
    rcases List.mem_append.mp hi with hi' | hi'
    · rcases List.mem_append.mp hi' with hi'' | hi''
      · obtain ⟨p, hp, rfl⟩ := List.mem_map.mp hi''
        exact (h1 p hp).1
      · obtain ⟨q, hq, rfl⟩ := List.mem_map.mp hi''
        exact h2 q hq
    · obtain ⟨p, hp, rfl⟩ := List.mem_map.mp hi'
      exact (h1 p hp).2

theorem keyToId_id_le {s : StoreState V} (hwf : StoreWF s) {k : String} {i : Nat}
    (h : (k, i) ∈ s.keyToId) : i ≤ s.counter :=
  (usedIds_bound_iff.mp hwf.2.2.2).2 (k, i) h

theorem entity_ids_le {s : StoreState V} (hwf : StoreWF s) {i : Nat} {e : Entity V}
    (h : (i, e) ∈ s.entitiesById) : i ≤ s.counter ∧ e.id ≤ s.counter :=
  (usedIds_bound_iff.mp hwf.2.2.2).1 (i, e) h

/-- The `upsert` update branch preserves the store invariants. -/
theorem stepWF_update {s : StoreState V} (hwf : StoreWF s) {k0 : String} {i0 : Nat}
    (hk : lookupA k0 s.keyToId = some i0) (c : EntityCandidate V) :
    StoreWF { s with entitiesById := setA i0 ⟨c, i0⟩ s.entitiesById } := by
  obtain ⟨h1, h2, h3, h4⟩ := hwf
  have hi0 : i0 ≤ s.counter := keyToId_id_le ⟨h1, h2, h3, h4⟩ (mem_of_lookupA hk)
  refine ⟨h1, h2, keys_nodup_setA i0 _ h3, ?_⟩
  rw [usedIds_bound_iff]
  refine ⟨fun p hp => ?_, fun q hq => (usedIds_bound_iff.mp h4).2 q hq⟩
  rcases mem_setA hp with rfl | hp'
  · exact ⟨hi0, hi0⟩
  · exact (usedIds_bound_iff.mp h4).1 p hp'

/-- The `upsert` insert branch preserves the store invariants and bumps
the counter. -/
theorem stepWF_insert {s : StoreState V} (hwf : StoreWF s) {k0 : String}
    (hk : lookupA k0 s.keyToId = none) (c : EntityCandidate V) :
    StoreWF ⟨setA (s.counter + 1) ⟨c, s.counter + 1⟩ s.entitiesById,
      setA k0 (s.counter + 1) s.keyToId, s.counter + 1⟩ := by
  obtain ⟨h1, h2, h3, h4⟩ := hwf
  have hbound := usedIds_bound_iff.mp h4
  have hknm : k0 ∉ s.keyToId.map Prod.fst := (lookupA_none_iff k0 _).mp hk
  refine ⟨keys_nodup_setA k0 _ h1, ?_, keys_nodup_setA _ _ h3, ?_⟩
  · rw [setA_of_not_mem _ hknm, List.map_append]
    refine List.Nodup.append h2 (List.nodup_singleton _) ?_
    intro a ha hb
    simp only [List.map_cons, List.map_nil, List.mem_singleton] at hb
    subst hb
    obtain ⟨q, hq, hqe⟩ := List.mem_map.mp ha
    have := hbound.2 q hq
    omega
  · rw [usedIds_bound_iff]
    constructor
    · intro p hp
      rcases mem_setA hp with rfl | hp'
      · exact ⟨Nat.le_refl _, Nat.le_refl _⟩
      · have := hbound.1 p hp'
        exact ⟨Nat.le_succ_of_le this.1, Nat.le_succ_of_le this.2⟩
    · intro q hq
      rcases mem_setA hq with rfl | hq'
      · exact Nat.le_refl _
      · exact Nat.le_succ_of_le (hbound.2 q hq')

theorem upsertList_counter_mono [DecidableEq V] (cs : List (EntityCandidate V)) :
    ∀ s : StoreState V, s.counter ≤ (upsertList s cs).2.2.counter := by
  induction cs with
  | nil => exact fun s => Nat.le_refl _
  | cons c rest ih =>
    intro s
    cases hl : lookupA c.key s.keyToId with
    | some eid =>
      cases he : lookupA eid s.entitiesById with
      | some ex =>
        by_cases hch : fieldsChanged ex c = true
        · simp only [upsertList, hl, he, hch, if_true]
          exact ih { s with entitiesById := setA eid { toEntityCandidate := c, id := eid } s.entitiesById }
        · rw [Bool.not_eq_true] at hch
          simp only [upsertList, hl, he, hch, Bool.false_eq_true, if_false]
          exact ih s
      | none =>
        simp only [upsertList, hl, he]
        exact ih s
    | none =>
      simp only [upsertList, hl]
      exact Nat.le_trans (Nat.le_succ _)
        (ih (⟨setA (s.counter + 1) { toEntityCandidate := c, id := s.counter + 1 } s.entitiesById, setA c.key (s.counter + 1) s.keyToId, s.counter + 1⟩ : StoreState V))

theorem upsertList_wf [DecidableEq V] (cs : List (EntityCandidate V)) :
    ∀ s : StoreState V, StoreWF s → StoreWF (upsertList s cs).2.2 := by
  induction cs with
  | nil => exact fun s h => h
  | cons c rest ih =>
    intro s hwf
    cases hl : lookupA c.key s.keyToId with
    | some eid =>
      cases he : lookupA eid s.entitiesById with
      | some ex =>
        by_cases hch : fieldsChanged ex c = true
        · simp only [upsertList, hl, he, hch, if_true]
          exact ih _ (stepWF_update hwf hl c)
        · rw [Bool.not_eq_true] at hch
          simp only [upsertList, hl, he, hch, Bool.false_eq_true, if_false]
          exact ih s hwf
      | none =>
        simp only [upsertList, hl, he]
        exact ih s hwf
    | none =>
      simp only [upsertList, hl]
      exact ih _ (stepWF_insert hwf hl c)

theorem upsertList_keyToId_some [DecidableEq V] (cs : List (EntityCandidate V)) :
    ∀ (s : StoreState V) (k : String) (i : Nat),
      lookupA k s.keyToId = some i →
      lookupA k (upsertList s cs).2.2.keyToId = some i := by
  induction cs with
  | nil => exact fun s k i h => h
  | cons c rest ih =>
    intro s k i hk
    cases hl : lookupA c.key s.keyToId with
    | some eid =>
      cases he : lookupA eid s.entitiesById with
      | some ex =>
        by_cases hch : fieldsChanged ex c = true
        · simp only [upsertList, hl, he, hch, if_true]
          exact ih { s with entitiesById := setA eid { toEntityCandidate := c, id := eid } s.entitiesById } k i hk
        · rw [Bool.not_eq_true] at hch
          simp only [upsertList, hl, he, hch, Bool.false_eq_true, if_false]
          exact ih s k i hk
      | none =>
        simp only [upsertList, hl, he]
        exact ih s k i hk
    | none =>
      have hne : c.key ≠ k := by
        intro heq
        rw [heq, hk] at hl
        cases hl
      simp only [upsertList, hl]
      exact ih (⟨setA (s.counter + 1) { toEntityCandidate := c, id := s.counter + 1 } s.entitiesById, setA c.key (s.counter + 1) s.keyToId, s.counter + 1⟩ : StoreState V) k i
        (by rw [lookupA_setA_ne hne]; exact hk)

theorem upsertList_keyToId_none [DecidableEq V] (cs : List (EntityCandidate V)) :
    ∀ (s : StoreState V) (k : String),
      (∀ c' ∈ cs, c'.key ≠ k) → lookupA k s.keyToId = none →
      lookupA k (upsertList s cs).2.2.keyToId = none := by
  induction cs with
  | nil => exact fun s k _ h => h
  | cons c rest ih =>
    intro s k hks hk
    have hcne : c.key ≠ k := hks c (List.mem_cons_self _ _)
    have hrest : ∀ c' ∈ rest, c'.key ≠ k :=
      fun c' hc' => hks c' (List.mem_cons_of_mem _ hc')
    cases hl : lookupA c.key s.keyToId with
    | some eid =>
      cases he : lookupA eid s.entitiesById with
      | some ex =>
        by_cases hch : fieldsChanged ex c = true
        · simp only [upsertList, hl, he, hch, if_true]
          exact ih { s with entitiesById := setA eid { toEntityCandidate := c, id := eid } s.entitiesById } k hrest hk
        · rw [Bool.not_eq_true] at hch
          simp only [upsertList, hl, he, hch, Bool.false_eq_true, if_false]
          exact ih s k hrest hk
      | none =>
        simp only [upsertList, hl, he]
        exact ih s k hrest hk
    | none =>
      simp only [upsertList, hl]
      exact ih (⟨setA (s.counter + 1) { toEntityCandidate := c, id := s.counter + 1 } s.entitiesById, setA c.key (s.counter + 1) s.keyToId, s.counter + 1⟩ : StoreState V) k hrest
        (by rw [lookupA_setA_ne hcne]; exact hk)

theorem upsertList_fresh [DecidableEq V] (cs : List (EntityCandidate V)) :
    ∀ (s : StoreState V) (k : String) (j : Nat),
      lookupA k s.keyToId = none →
      lookupA k (upsertList s cs).2.2.keyToId = some j →
      s.counter < j := by
  induction cs with
  | nil =>
    intro s k j h1 h2
    simp only [upsertList] at h2
    rw [h1] at h2
    cases h2
  | cons c rest ih =>
    intro s k j hk hfinal
    cases hl : lookupA c.key s.keyToId with
    | some eid =>
      cases he : lookupA eid s.entitiesById with
      | some ex =>
        by_cases hch : fieldsChanged ex c = true
        · simp only [upsertList, hl, he, hch, if_true] at hfinal
          exact ih { s with entitiesById := setA eid { toEntityCandidate := c, id := eid } s.entitiesById } k j hk hfinal
        · rw [Bool.not_eq_true] at hch
          simp only [upsertList, hl, he, hch, Bool.false_eq_true, if_false] at hfinal
          exact ih s k j hk hfinal
      | none =>
        simp only [upsertList, hl, he] at hfinal
        exact ih s k j hk hfinal
    | none =>
      simp only [upsertList, hl] at hfinal
      by_cases hck : c.key = k
      · subst hck
        have hstep : lookupA c.key
            ((⟨setA (s.counter + 1) { toEntityCandidate := c, id := s.counter + 1 } s.entitiesById, setA c.key (s.counter + 1) s.keyToId, s.counter + 1⟩ : StoreState V)).keyToId = some (s.counter + 1) :=
          lookupA_setA_self _ _ _
        have hsome := upsertList_keyToId_some rest (⟨setA (s.counter + 1) { toEntityCandidate := c, id := s.counter + 1 } s.entitiesById, setA c.key (s.counter + 1) s.keyToId, s.counter + 1⟩ : StoreState V) c.key (s.counter + 1) hstep
        rw [hsome] at hfinal
        injection hfinal with hj
        omega
      · have hnone : lookupA k ((⟨setA (s.counter + 1) { toEntityCandidate := c, id := s.counter + 1 } s.entitiesById, setA c.key (s.counter + 1) s.keyToId, s.counter + 1⟩ : StoreState V)).keyToId = none := by
          show lookupA k (setA c.key (s.counter + 1) s.keyToId) = none
          rw [lookupA_setA_ne hck]
          exact hk
        have hlt := ih (⟨setA (s.counter + 1) { toEntityCandidate := c, id := s.counter + 1 } s.entitiesById, setA c.key (s.counter + 1) s.keyToId, s.counter + 1⟩ : StoreState V) k j hnone hfinal
        simp only at hlt
        omega

theorem upsertList_keys_origin [DecidableEq V] (cs : List (EntityCandidate V)) :
    ∀ s : StoreState V,
      (∀ a ∈ (upsertList s cs).1, a.key ∈ cs.map (fun c' => c'.key)) ∧
      (∀ u ∈ (upsertList s cs).2.1, u.key ∈ cs.map (fun c' => c'.key)) := by
  induction cs with
  | nil => exact fun s => ⟨fun a ha => absurd ha (List.not_mem_nil a),
      fun u hu => absurd hu (List.not_mem_nil u)⟩
  | cons c rest ih =>
    intro s
    cases hl : lookupA c.key s.keyToId with
    | some eid =>
      cases he : lookupA eid s.entitiesById with
      | some ex =>
        by_cases hch : fieldsChanged ex c = true
        · simp only [upsertList, hl, he, hch, if_true]
          refine ⟨fun a ha => List.mem_cons_of_mem _ ((ih _).1 a ha), ?_⟩
          intro u hu
          rcases List.mem_cons.mp hu with rfl | hu'
          · exact List.mem_cons_self _ _
          · exact List.mem_cons_of_mem _ ((ih _).2 u hu')
        · rw [Bool.not_eq_true] at hch
          simp only [upsertList, hl, he, hch, Bool.false_eq_true, if_false]
          exact ⟨fun a ha => List.mem_cons_of_mem _ ((ih s).1 a ha),
            fun u hu => List.mem_cons_of_mem _ ((ih s).2 u hu)⟩
      | none =>
        simp only [upsertList, hl, he]
        exact ⟨fun a ha => List.mem_cons_of_mem _ ((ih s).1 a ha),
          fun u hu => List.mem_cons_of_mem _ ((ih s).2 u hu)⟩
    | none =>
      simp only [upsertList, hl]
      refine ⟨?_, fun u hu => List.mem_cons_of_mem _ ((ih _).2 u hu)⟩
      intro a ha
      rcases List.mem_cons.mp ha with rfl | ha'
      · exact List.mem_cons_self _ _
      · exact List.mem_cons_of_mem _ ((ih _).1 a ha')

theorem upsertList_frame [DecidableEq V] (cs : List (EntityCandidate V)) :
    ∀ (s : StoreState V) (k : String) (i : Nat),
      (∀ c' ∈ cs, c'.key ≠ k) → StoreWF s →
      lookupA k s.keyToId = some i →
      lookupA i (upsertList s cs).2.2.entitiesById = lookupA i s.entitiesById := by
  induction cs with
  | nil => exact fun s k i _ _ _ => rfl
  | cons c rest ih =>
    intro s k i hks hwf hk
    have hcne : c.key ≠ k := hks c (List.mem_cons_self _ _)
    have hrest : ∀ c' ∈ rest, c'.key ≠ k :=
      fun c' hc' => hks c' (List.mem_cons_of_mem _ hc')
    cases hl : lookupA c.key s.keyToId with
    | some eid =>
      cases he : lookupA eid s.entitiesById with
      | some ex =>
        have heid : eid ≠ i := by
          intro heq
          subst heq
          exact hcne (snd_nodup_inj hwf.2.1 (mem_of_lookupA hl) (mem_of_lookupA hk))
        by_cases hch : fieldsChanged ex c = true
        · simp only [upsertList, hl, he, hch, if_true]
          rw [ih _ k i hrest (stepWF_update hwf hl c) hk]
          exact lookupA_setA_ne heid _ _
        · rw [Bool.not_eq_true] at hch
          simp only [upsertList, hl, he, hch, Bool.false_eq_true, if_false]
          exact ih s k i hrest hwf hk
      | none =>
        simp only [upsertList, hl, he]
        exact ih s k i hrest hwf hk
    | none =>
      have hile : i ≤ s.counter := keyToId_id_le hwf (mem_of_lookupA hk)
      have hnew : s.counter + 1 ≠ i := by omega
      simp only [upsertList, hl]
      rw [ih _ k i hrest (stepWF_insert hwf hl c)
        (by rw [lookupA_setA_ne hcne]; exact hk)]
      exact lookupA_setA_ne hnew _ _

/-- Erasing a key/id pair preserves the store invariants. -/
theorem stepWF_erase {s : StoreState V} (hwf : StoreWF s) (key : String) (i : Nat) :
    StoreWF { s with entitiesById := eraseA i s.entitiesById,
                     keyToId := eraseA key s.keyToId } := by
  obtain ⟨h1, h2, h3, h4⟩ := hwf
  refine ⟨keys_nodup_eraseA key h1,
    (((eraseA_sublist key s.keyToId).map Prod.snd).nodup h2),
    keys_nodup_eraseA i h3, ?_⟩
  rw [usedIds_bound_iff]
  have hb := usedIds_bound_iff.mp h4
  exact ⟨fun p hp => hb.1 p ((eraseA_sublist i _).subset hp),
    fun q hq => hb.2 q ((eraseA_sublist key _).subset hq)⟩

theorem removeByKeys_counter (ks : List String) :
    ∀ s : StoreState V, (removeByKeys s ks).2.counter = s.counter := by
  induction ks with
  | nil => exact fun s => rfl
  | cons key rest ih =>
    intro s
    cases hl : lookupA key s.keyToId with
    | some id =>
      cases he : lookupA id s.entitiesById with
      | some entity =>
        simp only [removeByKeys, hl, he]
        exact ih { s with entitiesById := eraseA id s.entitiesById,
                          keyToId := eraseA key s.keyToId }
      | none =>
        simp only [removeByKeys, hl, he]
        exact ih s
    | none =>
      simp only [removeByKeys, hl]
      exact ih s

theorem removeByKeys_wf (ks : List String) :
    ∀ s : StoreState V, StoreWF s → StoreWF (removeByKeys s ks).2 := by
  induction ks with
  | nil => exact fun s h => h
  | cons key rest ih =>
    intro s hwf
    cases hl : lookupA key s.keyToId with
    | some id =>
      cases he : lookupA id s.entitiesById with
      | some entity =>
        simp only [removeByKeys, hl, he]
        exact ih _ (stepWF_erase hwf key id)
      | none =>
        simp only [removeByKeys, hl, he]
        exact ih s hwf
    | none =>
      simp only [removeByKeys, hl]
      exact ih s hwf

theorem removeByKeys_keyToId_none (ks : List String) :
    ∀ (s : StoreState V) (k : String),
      lookupA k s.keyToId = none →
      lookupA k (removeByKeys s ks).2.keyToId = none := by
  induction ks with
  | nil => exact fun s k h => h
  | cons key rest ih =>
    intro s k hk
    cases hl : lookupA key s.keyToId with
    | some id =>
      cases he : lookupA id s.entitiesById with
      | some entity =>
        simp only [removeByKeys, hl, he]
        exact ih { s with entitiesById := eraseA id s.entitiesById,
                          keyToId := eraseA key s.keyToId } k
          (lookupA_eraseA_of_none hk)
      | none =>
        simp only [removeByKeys, hl, he]
        exact ih s k hk
    | none =>
      simp only [removeByKeys, hl]
      exact ih s k hk

theorem removeByKeys_keyToId_notMem (ks : List String) :
    ∀ (s : StoreState V) (k : String), k ∉ ks →
      lookupA k (removeByKeys s ks).2.keyToId = lookupA k s.keyToId := by
  induction ks with
  | nil => exact fun s k _ => rfl
  | cons key rest ih =>
    intro s k hk
    simp only [List.mem_cons] at hk
    push_neg at hk
    cases hl : lookupA key s.keyToId with
    | some id =>
      cases he : lookupA id s.entitiesById with
      | some entity =>
        simp only [removeByKeys, hl, he]
        rw [ih { s with entitiesById := eraseA id s.entitiesById,
                        keyToId := eraseA key s.keyToId } k hk.2]
        exact lookupA_eraseA_ne (fun heq => hk.1 heq.symm) _
      | none =>
        simp only [removeByKeys, hl, he]
        exact ih s k hk.2
    | none =>
      simp only [removeByKeys, hl]
      exact ih s k hk.2

theorem removeByKeys_keyToId_some (ks : List String) :
    ∀ (s : StoreState V) (k : String) (i j : Nat),
      (s.keyToId.map Prod.fst).Nodup →
      lookupA k s.keyToId = some i →
      lookupA k (removeByKeys s ks).2.keyToId = some j → j = i := by
  induction ks with
  | nil =>
    intro s k i j _ hk hj
    simp only [removeByKeys] at hj
    rw [hk] at hj
    injection hj with hj
    exact hj.symm
  | cons key rest ih =>
    intro s k i j hnd hk hj
    cases hl : lookupA key s.keyToId with
    | some id =>
      cases he : lookupA id s.entitiesById with
      | some entity =>
        simp only [removeByKeys, hl, he] at hj
        by_cases hkey : key = k
        · subst hkey
          have hnone : lookupA key (eraseA key s.keyToId) = none :=
            lookupA_eraseA_self key hnd
          have := removeByKeys_keyToId_none rest
            { s with entitiesById := eraseA id s.entitiesById,
                     keyToId := eraseA key s.keyToId } key hnone
          rw [this] at hj
          cases hj
        · have hkeep : lookupA k (eraseA key s.keyToId) = some i := by
            rw [lookupA_eraseA_ne hkey]
            exact hk
          exact ih { s with entitiesById := eraseA id s.entitiesById,
                            keyToId := eraseA key s.keyToId } k i j
            (keys_nodup_eraseA key hnd) hkeep hj
      | none =>
        simp only [removeByKeys, hl, he] at hj
        exact ih s k i j hnd hk hj
    | none =>
      simp only [removeByKeys, hl] at hj
      exact ih s k i j hnd hk hj

/-- `removeById` leaves `keyToId` lookups either intact or absent. -/
theorem removeById_keyToId_some {s : StoreState V} {id : Nat} {k : String}
    {i j : Nat} (hnd : (s.keyToId.map Prod.fst).Nodup)
    (hk : lookupA k s.keyToId = some i)
    (hj : lookupA k (removeById s id).2.keyToId = some j) : j = i := by
  unfold removeById at hj
  cases he : lookupA id s.entitiesById with
  | some entity =>
    rw [he] at hj
    by_cases hkey : entity.key = k
    · subst hkey
      rw [lookupA_eraseA_self _ hnd] at hj
      cases hj
    · rw [lookupA_eraseA_ne hkey] at hj
      rw [hk] at hj
      injection hj with hj
      exact hj.symm
  | none =>
    rw [he] at hj
    rw [hk] at hj
    injection hj with hj
    exact hj.symm

theorem removeById_keyToId_none {s : StoreState V} {id : Nat} {k : String}
    (hk : lookupA k s.keyToId = none) :
    lookupA k (removeById s id).2.keyToId = none := by
  unfold removeById
  cases he : lookupA id s.entitiesById with
  | some entity => exact lookupA_eraseA_of_none hk
  | none => exact hk

theorem removeById_wf {s : StoreState V} (hwf : StoreWF s) (id : Nat) :
    StoreWF (removeById s id).2 := by
  unfold removeById
  cases he : lookupA id s.entitiesById with
  | some entity => exact stepWF_erase hwf entity.key id
  | none => exact hwf

theorem removeById_counter (s : StoreState V) (id : Nat) :
    (removeById s id).2.counter = s.counter := by
  unfold removeById
  cases he : lookupA id s.entitiesById with
  | some entity => rfl
  | none => rfl

theorem confirmAll_keyToId (s : StoreState V) :
    (confirmAll s).2.keyToId = s.keyToId := rfl

theorem confirmAll_counter (s : StoreState V) :
    (confirmAll s).2.counter = s.counter := rfl

theorem confirmAll_wf {s : StoreState V} (hwf : StoreWF s) :
    StoreWF (confirmAll s).2 := by
  obtain ⟨h1, h2, h3, h4⟩ := hwf
  have hb := usedIds_bound_iff.mp h4
  refine ⟨h1, h2, ?_, ?_⟩
  · show ((s.entitiesById.map _).map Prod.fst).Nodup
    rw [List.map_map]
    have : (Prod.fst ∘ fun p : Nat × Entity V =>
        if p.2.status = EntityStatus.provisional then
          (p.1, { p.2 with status := EntityStatus.confirmed })
        else p) = Prod.fst := by
      funext p
      by_cases h : p.2.status = EntityStatus.provisional <;> simp [h]
    rw [this]
    exact h3
  · rw [usedIds_bound_iff]
    refine ⟨?_, fun q hq => hb.2 q hq⟩
    intro p hp
    obtain ⟨p0, hp0, rfl⟩ := List.mem_map.mp hp
    have := hb.1 p0 hp0
    by_cases h : p0.2.status = EntityStatus.provisional <;> simp [h] <;> exact this

theorem clear_wf (s : StoreState V) : StoreWF (clear s) := by
  refine ⟨List.nodup_nil, List.nodup_nil, List.nodup_nil, ?_⟩
  intro i hi
  simp [usedIds, clear] at hi

theorem initStore_wf : StoreWF (initStore V) := by
  refine ⟨List.nodup_nil, List.nodup_nil, List.nodup_nil, ?_⟩
  intro i hi
  simp [usedIds, initStore] at hi

theorem mem_computeRemovals {s : StoreState V} {currentKeys : List String}
    {k : String} (h : k ∈ computeRemovals s currentKeys) : k ∉ currentKeys := by
  unfold computeRemovals at h
  have := (List.mem_filter.mp h).2
  rwa [decide_eq_true_iff] at this

/-- `reconcile` unfolded to its two phases. -/
theorem reconcile_snd [DecidableEq V] (s : StoreState V)
    (cs : List (EntityCandidate V)) :
    (reconcile s cs).2 =
      (upsertList
        (removeByKeys s
          (computeRemovals s (cs.map (fun c => c.key)))).2 cs).2.2 := by
  rfl

theorem removeByKeys_some_or_none (ks : List String) :
    ∀ (s : StoreState V) (k : String) (i : Nat),
      (s.keyToId.map Prod.fst).Nodup →
      lookupA k s.keyToId = some i →
      lookupA k (removeByKeys s ks).2.keyToId = some i ∨
        lookupA k (removeByKeys s ks).2.keyToId = none := by
  induction ks with
  | nil =>
    intro s k i _ hk
    left
    simp only [removeByKeys]
    exact hk
  | cons key rest ih =>
    intro s k i hnd hk
    cases hl : lookupA key s.keyToId with
    | some id =>
      cases he : lookupA id s.entitiesById with
      | some entity =>
        simp only [removeByKeys, hl, he]
        by_cases hkey : key = k
        · subst hkey
          right
          exact removeByKeys_keyToId_none rest _ key
            (lookupA_eraseA_self key hnd)
        · exact ih { s with entitiesById := eraseA id s.entitiesById,
                            keyToId := eraseA key s.keyToId } k i
            (keys_nodup_eraseA key hnd)
            (by rw [lookupA_eraseA_ne hkey]; exact hk)
      | none =>
        simp only [removeByKeys, hl, he]
        exact ih s k i hnd hk
    | none =>
      simp only [removeByKeys, hl]
      exact ih s k i hnd hk

theorem not_mem_computeRemovals {s : StoreState V} {currentKeys : List String}
    {k : String} (h : k ∈ currentKeys) : k ∉ computeRemovals s currentKeys := by
  intro hmem
  exact mem_computeRemovals hmem h

theorem reconcile_keyToId_some [DecidableEq V] {s : StoreState V}
    {cs : List (EntityCandidate V)} {k : String} {i j : Nat} (hwf : StoreWF s)
    (hk : lookupA k s.keyToId = some i)
    (hj : lookupA k (reconcile s cs).2.keyToId = some j) : j = i := by
  rw [reconcile_snd] at hj
  rcases removeByKeys_some_or_none
      (computeRemovals s (cs.map (fun c => c.key))) s k i hwf.1 hk with
    hsome | hnone
  · have h2 := upsertList_keyToId_some cs _ k i hsome
    rw [h2] at hj
    injection hj with hj
    exact hj.symm
  · exfalso
    by_cases hck : k ∈ cs.map (fun c => c.key)
    · have hnm := not_mem_computeRemovals (s := s) hck
      rw [removeByKeys_keyToId_notMem _ _ _ hnm, hk] at hnone
      cases hnone
    · have hkeysne : ∀ c' ∈ cs, c'.key ≠ k := by
        intro c' hc' heq
        exact hck (heq ▸ List.mem_map_of_mem _ hc')
      rw [upsertList_keyToId_none cs _ k hkeysne hnone] at hj
      cases hj

theorem reconcile_fresh [DecidableEq V] {s : StoreState V}
    {cs : List (EntityCandidate V)} {k : String} {j : Nat}
    (hk : lookupA k s.keyToId = none)
    (hj : lookupA k (reconcile s cs).2.keyToId = some j) : s.counter < j := by
  rw [reconcile_snd] at hj
  have h1 := removeByKeys_keyToId_none
    (computeRemovals s (cs.map (fun c => c.key))) s k hk
  have h2 := upsertList_fresh cs _ k j h1 hj
  rwa [removeByKeys_counter] at h2

theorem reconcile_wf [DecidableEq V] {s : StoreState V}
    {cs : List (EntityCandidate V)} (hwf : StoreWF s) :
    StoreWF (reconcile s cs).2 := by
  rw [reconcile_snd]
  exact upsertList_wf cs _ (removeByKeys_wf _ s hwf)

theorem reconcile_counter_mono [DecidableEq V] (s : StoreState V)
    (cs : List (EntityCandidate V)) :
    s.counter ≤ (reconcile s cs).2.counter := by
  rw [reconcile_snd]
  calc s.counter
      = (removeByKeys s (computeRemovals s (cs.map (fun c => c.key)))).2.counter :=
        (removeByKeys_counter _ s).symm
    _ ≤ _ := upsertList_counter_mono cs _

/-! ### Operation-level store lemmas -/

/-- Any single store operation either preserves a present key's id or
removes the key (never rebinds it). -/
theorem applyOp_keyToId_some [DecidableEq V] (op : StoreOp V) (s : StoreState V)
    (k : String) (i j : Nat) (hwf : StoreWF s)
    (hk : lookupA k s.keyToId = some i)
    (hj : lookupA k (applyOp op s).keyToId = some j) : j = i := by
  cases op with
  | upsert cs =>
    have := upsertList_keyToId_some cs s k i hk
    rw [show (applyOp (StoreOp.upsert cs) s) = (upsertList s cs).2.2 from rfl] at hj
    rw [this] at hj
    injection hj with hj
    exact hj.symm
  | removeByKeys ks => exact removeByKeys_keyToId_some ks s k i j hwf.1 hk hj
  | removeById id => exact removeById_keyToId_some hwf.1 hk hj
  | reconcile cs => exact reconcile_keyToId_some hwf hk hj
  | confirmAll =>
    rw [show (applyOp (StoreOp.confirmAll) s).keyToId = s.keyToId from rfl] at hj
    rw [hk] at hj
    injection hj with hj
    exact hj.symm
  | clear =>
    rw [show (applyOp (StoreOp.clear) s).keyToId = [] from rfl] at hj
    cases hj

/-- Any single store operation binding a previously absent key gives it
an id strictly above the pre-state counter. -/
theorem applyOp_fresh [DecidableEq V] (op : StoreOp V) (s : StoreState V)
    (k : String) (j : Nat)
    (hk : lookupA k s.keyToId = none)
    (hj : lookupA k (applyOp op s).keyToId = some j) : s.counter < j := by
  cases op with
  | upsert cs => exact upsertList_fresh cs s k j hk hj
  | removeByKeys ks =>
    rw [show (applyOp (StoreOp.removeByKeys ks) s) = (removeByKeys s ks).2 from rfl,
      removeByKeys_keyToId_none ks s k hk] at hj
    cases hj
  | removeById id =>
    rw [show (applyOp (StoreOp.removeById id) s) = (removeById s id).2 from rfl,
      removeById_keyToId_none hk] at hj
    cases hj
  | reconcile cs => exact reconcile_fresh hk hj
  | confirmAll =>
    rw [show (applyOp (StoreOp.confirmAll) s).keyToId = s.keyToId from rfl, hk] at hj
    cases hj
  | clear =>
    rw [show (applyOp (StoreOp.clear) s).keyToId = [] from rfl] at hj
    cases hj

theorem applyOp_wf [DecidableEq V] (op : StoreOp V) (s : StoreState V)
    (hwf : StoreWF s) : StoreWF (applyOp op s) := by
  cases op with
  | upsert cs => exact upsertList_wf cs s hwf
  | removeByKeys ks => exact removeByKeys_wf ks s hwf
  | removeById id => exact removeById_wf hwf id
  | reconcile cs => exact reconcile_wf hwf
  | confirmAll => exact confirmAll_wf hwf
  | clear => exact clear_wf s

theorem applyOp_counter_mono [DecidableEq V] (op : StoreOp V) (s : StoreState V) :
    s.counter ≤ (applyOp op s).counter := by
  cases op with
  | upsert cs => exact upsertList_counter_mono cs s
  | removeByKeys ks =>
    rw [show (applyOp (StoreOp.removeByKeys ks) s) = (removeByKeys s ks).2 from rfl,
      removeByKeys_counter]
  | removeById id =>
    rw [show (applyOp (StoreOp.removeById id) s) = (removeById s id).2 from rfl,
      removeById_counter]
  | reconcile cs => exact reconcile_counter_mono s cs
  | confirmAll => exact Nat.le_of_eq (confirmAll_counter s).symm
  | clear => exact Nat.le_refl _

theorem runOpsFrom_append [DecidableEq V] (l1 l2 : List (StoreOp V)) :
    ∀ s : StoreState V, runOpsFrom s (l1 ++ l2) = runOpsFrom (runOpsFrom s l1) l2 := by
  induction l1 with
  | nil => exact fun s => rfl
  | cons op rest ih =>
    intro s
    simp only [List.cons_append, runOpsFrom]
    exact ih (applyOp op s)

theorem runOpsFrom_wf [DecidableEq V] (ops : List (StoreOp V)) :
    ∀ s : StoreState V, StoreWF s → StoreWF (runOpsFrom s ops) := by
  induction ops with
  | nil => exact fun s h => h
  | cons op rest ih =>
    intro s hwf
    exact ih _ (applyOp_wf op s hwf)

theorem runOpsFrom_counter_mono [DecidableEq V] (ops : List (StoreOp V)) :
    ∀ s : StoreState V, s.counter ≤ (runOpsFrom s ops).counter := by
  induction ops with
  | nil => exact fun s => Nat.le_refl _
  | cons op rest ih =>
    intro s
    exact Nat.le_trans (applyOp_counter_mono op s) (ih _)

/-- A key's binding at the end of a run either already existed with
the same id, or its id exceeds the starting counter. -/
theorem runOpsFrom_some_or_fresh [DecidableEq V] (ops : List (StoreOp V)) :
    ∀ (s : StoreState V) (k : String) (j : Nat), StoreWF s →
      lookupA k (runOpsFrom s ops).keyToId = some j →
      lookupA k s.keyToId = some j ∨ s.counter < j := by
  induction ops with
  | nil => exact fun s k j _ h => Or.inl h
  | cons op rest ih =>
    intro s k j hwf hj
    rcases ih (applyOp op s) k j (applyOp_wf op s hwf) hj with h | h
    · cases hk : lookupA k s.keyToId with
      | some i =>
        rw [applyOp_keyToId_some op s k i j hwf hk h, ← hk]
        exact Or.inl rfl
      | none => exact Or.inr (applyOp_fresh op s k j hk h)
    · exact Or.inr (Nat.lt_of_le_of_lt (applyOp_counter_mono op s) h)

theorem upsertList_append [DecidableEq V] (xs ys : List (EntityCandidate V)) :
    ∀ s : StoreState V,
      upsertList s (xs ++ ys) =
        ((upsertList s xs).1 ++ (upsertList (upsertList s xs).2.2 ys).1,
         (upsertList s xs).2.1 ++ (upsertList (upsertList s xs).2.2 ys).2.1,
         (upsertList (upsertList s xs).2.2 ys).2.2) := by
  induction xs with
  | nil =>
    intro s
    rfl
  | cons c xs' ih =>
    intro s
    cases hl : lookupA c.key s.keyToId with
    | some eid =>
      cases he : lookupA eid s.entitiesById with
      | some ex =>
        by_cases hch : fieldsChanged ex c = true
        · simp only [List.cons_append, upsertList, hl, he, hch, if_true,
            List.append_eq]
          rw [ih]
        · rw [Bool.not_eq_true] at hch
          simp only [List.cons_append, upsertList, hl, he, hch,
            Bool.false_eq_true, if_false]
          exact ih s
      | none =>
        simp only [List.cons_append, upsertList, hl, he]
        exact ih s
    | none =>
      simp only [List.cons_append, upsertList, hl, List.append_eq]
      rw [ih]

end StoreLemmas

/-- C5: for every key `k` present in the store, a store operation
either preserves `k`'s id or removes the key (in particular an upsert
of an existing key keeps its id); and over any operation history from
the initial store, when `k` is absent and a later insertion binds it
again, the new id differs from every id in use at any earlier prefix —
ids are minted from a strictly monotone counter and never reused. -/
theorem C5_store_id_stability {V : Type} [DecidableEq V] :
    (∀ (op : StoreOp V) (s : StoreState V) (k : String) (i j : Nat),
      StoreWF s → lookupA k s.keyToId = some i →
      lookupA k (applyOp op s).keyToId = some j → j = i) ∧
    (∀ (ops ops2 pre : List (StoreOp V)) (k : String) (i j : Nat),
      pre <+: ops →
      i ∈ usedIds (runOps (V := V) pre) →
      lookupA k (runOps (V := V) ops).keyToId = none →
      lookupA k (runOps (V := V) (ops ++ ops2)).keyToId = some j →
      j ≠ i) := by
  constructor
  · exact fun op s k i j hwf hk hj => applyOp_keyToId_some op s k i j hwf hk hj
  · intro ops ops2 pre k i j hpre hi hnone hsome
    obtain ⟨tail, rfl⟩ := hpre
    have hwf0 : StoreWF (runOps (V := V) (pre ++ tail)) :=
      runOpsFrom_wf _ _ initStore_wf
    have hcnt : i ≤ (runOps (V := V) pre).counter :=
      (runOpsFrom_wf pre _ initStore_wf).2.2.2 i hi
    have hmono : (runOps (V := V) pre).counter ≤
        (runOps (V := V) (pre ++ tail)).counter := by
      unfold runOps
      rw [runOpsFrom_append]
      exact runOpsFrom_counter_mono tail _
    have hsplit : runOps (V := V) (pre ++ tail ++ ops2) =
        runOpsFrom (runOps (V := V) (pre ++ tail)) ops2 := by
      unfold runOps
      rw [runOpsFrom_append]
    rw [hsplit] at hsome
    rcases runOpsFrom_some_or_fresh ops2 _ k j hwf0 hsome with h | h
    · rw [hnone] at h
      cases h
    · omega

/-- C5 witness: the stability half applied to an upsert of the present
key `"k"` (id stays 1), and the freshness half applied to the history
insert–remove–reinsert of `"k"` (the second insertion mints id 2,
distinct from the previously used id 1). -/
theorem C5_witness :
    StoreWF (⟨[(1, ⟨⟨"k", .quantity, ⟨0, 1⟩, [], 0, 1, .provisional⟩, 1⟩)],
        [("k", 1)], 1⟩ : StoreState Nat) ∧
    (1 : Nat) = 1 ∧ (2 : Nat) ≠ 1 := by
  refine ⟨by decide, ?_, ?_⟩
  · exact C5_store_id_stability.1
      (.upsert [⟨"k", .quantity, ⟨0, 1⟩, [], 0, 0, .provisional⟩])
      ⟨[(1, ⟨⟨"k", .quantity, ⟨0, 1⟩, [], 0, 1, .provisional⟩, 1⟩)], [("k", 1)], 1⟩
      "k" 1 1 (by decide) (by decide) (by decide)
  · exact C5_store_id_stability.2
      [.upsert [⟨"k", .quantity, ⟨0, 1⟩, [], 0, 1, .provisional⟩],
        .removeByKeys ["k"]]
      [.upsert [⟨"k", .quantity, ⟨0, 1⟩, [], 0, 1, .provisional⟩]]
      [.upsert [⟨"k", .quantity, ⟨0, 1⟩, [], 0, 1, .provisional⟩]]
      "k" 1 2 ⟨[.removeByKeys ["k"]], rfl⟩ (by decide) (by decide) (by decide)

/-- C6: for every `upsert(candidates)` call (candidates with pairwise
distinct keys, as delivered by the runner's merge) and every candidate
whose key is already stored, the reconstructed entity (the candidate
with the preserved id) is appended to the returned `updated` list when
one of `span.start`, `span.end`, `confidence`, `status` or `value`
differs from the stored entity, and no entry for that key is appended
when none differs. -/
theorem C6_upsert_updated_iff {V : Type} [DecidableEq V] (s : StoreState V)
    (cs : List (EntityCandidate V)) (c : EntityCandidate V) (i : Nat)
    (e : Entity V) (hwf : StoreWF s)
    (hnd : (cs.map (fun c' => c'.key)).Nodup) (hc : c ∈ cs)
    (hk : lookupA c.key s.keyToId = some i)
    (he : lookupA i s.entitiesById = some e) :
    (fieldsChanged e c = true →
      ({ toEntityCandidate := c, id := i } : Entity V) ∈ (upsert s cs).1.updated) ∧
    (fieldsChanged e c = false →
      ∀ u ∈ (upsert s cs).1.updated, u.key ≠ c.key) := by
  obtain ⟨pre, post, rfl⟩ := List.append_of_mem hc
  rw [List.map_append, List.map_cons] at hnd
  have hdisj := List.disjoint_of_nodup_append hnd
  have hndr := List.Nodup.of_append_right hnd
  have hkpre : ∀ c' ∈ pre, c'.key ≠ c.key := by
    intro c' hc' heq
    exact hdisj (heq ▸ List.mem_map_of_mem _ hc') (List.mem_cons_self _ _)
  have hkpost : ∀ c' ∈ post, c'.key ≠ c.key := by
    intro c' hc' heq
    exact (List.nodup_cons.mp hndr).1 (heq ▸ List.mem_map_of_mem _ hc')
  have hupd : (upsert s (pre ++ c :: post)).1.updated =
      (upsertList s pre).2.1 ++
        (upsertList (upsertList s pre).2.2 (c :: post)).2.1 := by
    show (upsertList s (pre ++ c :: post)).2.1 = _
    rw [upsertList_append]
  have hsome : lookupA c.key (upsertList s pre).2.2.keyToId = some i :=
    upsertList_keyToId_some pre s c.key i hk
  have hent : lookupA i (upsertList s pre).2.2.entitiesById = some e := by
    rw [upsertList_frame pre s c.key i hkpre hwf hk]
    exact he
  constructor
  · intro hch
    have hstep : (upsertList (upsertList s pre).2.2 (c :: post)).2.1 =
        ({ toEntityCandidate := c, id := i } : Entity V) ::
          (upsertList { (upsertList s pre).2.2 with
            entitiesById := setA i { toEntityCandidate := c, id := i }
              (upsertList s pre).2.2.entitiesById } post).2.1 := by
      simp only [upsertList, hsome, hent, hch, if_true]
    rw [hupd, hstep]
    exact List.mem_append_right _ (List.mem_cons_self _ _)
  · intro hch u hu
    have hstep : upsertList (upsertList s pre).2.2 (c :: post) =
        upsertList (upsertList s pre).2.2 post := by
      simp only [upsertList, hsome, hent, hch, Bool.false_eq_true, if_false]
    rw [hupd, hstep] at hu
    rcases List.mem_append.mp hu with hu' | hu'
    · have := (upsertList_keys_origin pre s).2 u hu'
      obtain ⟨c', hc', heq⟩ := List.mem_map.mp this
      intro habs
      exact hkpre c' hc' (by rw [heq, habs])
    · have := (upsertList_keys_origin post _).2 u hu'
      obtain ⟨c', hc', heq⟩ := List.mem_map.mp this
      intro habs
      exact hkpost c' hc' (by rw [heq, habs])

/-- C6 witness: a two-candidate upsert against a store holding both
keys, where `"a"`'s confidence changed and `"b"` is identical: the
updated entity for `"a"` is in the updated list, and no entry for
`"b"` is. -/
theorem C6_witness :
    (fieldsChanged
        (⟨⟨"a", .quantity, ⟨0, 1⟩, [], 0, 1, .provisional⟩, 1⟩ : Entity Nat)
        ⟨"a", .quantity, ⟨0, 1⟩, [], 0, 0, .provisional⟩ = true →
      ({ toEntityCandidate := ⟨"a", .quantity, ⟨0, 1⟩, [], 0, 0, .provisional⟩,
          id := 1 } : Entity Nat) ∈
        (upsert (⟨[(1, ⟨⟨"a", .quantity, ⟨0, 1⟩, [], 0, 1, .provisional⟩, 1⟩)],
            [("a", 1)], 1⟩ : StoreState Nat)
          [⟨"a", .quantity, ⟨0, 1⟩, [], 0, 0, .provisional⟩]).1.updated) ∧
    (fieldsChanged
        (⟨⟨"a", .quantity, ⟨0, 1⟩, [], 0, 1, .provisional⟩, 1⟩ : Entity Nat)
        ⟨"a", .quantity, ⟨0, 1⟩, [], 0, 0, .provisional⟩ = false →
      ∀ u ∈ (upsert (⟨[(1, ⟨⟨"a", .quantity, ⟨0, 1⟩, [], 0, 1, .provisional⟩, 1⟩)],
          [("a", 1)], 1⟩ : StoreState Nat)
        [⟨"a", .quantity, ⟨0, 1⟩, [], 0, 0, .provisional⟩]).1.updated,
        u.key ≠ "a") :=
  C6_upsert_updated_iff
    ⟨[(1, ⟨⟨"a", .quantity, ⟨0, 1⟩, [], 0, 1, .provisional⟩, 1⟩)], [("a", 1)], 1⟩
    [⟨"a", .quantity, ⟨0, 1⟩, [], 0, 0, .provisional⟩]
    ⟨"a", .quantity, ⟨0, 1⟩, [], 0, 0, .provisional⟩ 1
    ⟨⟨"a", .quantity, ⟨0, 1⟩, [], 0, 1, .provisional⟩, 1⟩
    (by decide) (by decide) (by decide) (by decide) (by decide)

/-- C9: for every `upsert` call (candidates with pairwise distinct
keys) and every candidate whose key is stored with all compared fields
equal, the store entry is left completely unchanged: the key still
maps to the same id, the very same stored entity object (with its
original `text` and `kind`, even when the candidate's differ) is still
stored under that id, and no entry for the key appears in `added` or
`updated`. -/
theorem C9_upsert_unchanged_frame {V : Type} [DecidableEq V] (s : StoreState V)
    (cs : List (EntityCandidate V)) (c : EntityCandidate V) (i : Nat)
    (e : Entity V) (hwf : StoreWF s)
    (hnd : (cs.map (fun c' => c'.key)).Nodup) (hc : c ∈ cs)
    (hk : lookupA c.key s.keyToId = some i)
    (he : lookupA i s.entitiesById = some e)
    (hch : fieldsChanged e c = false) :
    lookupA c.key (upsert s cs).2.keyToId = some i ∧
    lookupA i (upsert s cs).2.entitiesById = some e ∧
    (∀ a ∈ (upsert s cs).1.added, a.key ≠ c.key) ∧
    (∀ u ∈ (upsert s cs).1.updated, u.key ≠ c.key) := by
  obtain ⟨pre, post, rfl⟩ := List.append_of_mem hc
  rw [List.map_append, List.map_cons] at hnd
  have hdisj := List.disjoint_of_nodup_append hnd
  have hndr := List.Nodup.of_append_right hnd
  have hkpre : ∀ c' ∈ pre, c'.key ≠ c.key := by
    intro c' hc' heq
    exact hdisj (heq ▸ List.mem_map_of_mem _ hc') (List.mem_cons_self _ _)
  have hkpost : ∀ c' ∈ post, c'.key ≠ c.key := by
    intro c' hc' heq
    exact (List.nodup_cons.mp hndr).1 (heq ▸ List.mem_map_of_mem _ hc')
  have hsome : lookupA c.key (upsertList s pre).2.2.keyToId = some i :=
    upsertList_keyToId_some pre s c.key i hk
  have hent : lookupA i (upsertList s pre).2.2.entitiesById = some e := by
    rw [upsertList_frame pre s c.key i hkpre hwf hk]
    exact he
  have hwfmid : StoreWF (upsertList s pre).2.2 := upsertList_wf pre s hwf
  have hstep : upsertList (upsertList s pre).2.2 (c :: post) =
      upsertList (upsertList s pre).2.2 post := by
    simp only [upsertList, hsome, hent, hch, Bool.false_eq_true, if_false]
  have hsplit := upsertList_append pre (c :: post) s
  refine ⟨?_, ?_, ?_, ?_⟩
  · show lookupA c.key (upsertList s (pre ++ c :: post)).2.2.keyToId = some i
    rw [hsplit]
    show lookupA c.key (upsertList (upsertList s pre).2.2 (c :: post)).2.2.keyToId =
      some i
    rw [hstep]
    exact upsertList_keyToId_some post _ c.key i hsome
  · show lookupA i (upsertList s (pre ++ c :: post)).2.2.entitiesById = some e
    rw [hsplit]
    show lookupA i (upsertList (upsertList s pre).2.2 (c :: post)).2.2.entitiesById =
      some e
    rw [hstep, upsertList_frame post _ c.key i hkpost hwfmid hsome]
    exact hent
  · intro a ha
    have ha' : a ∈ (upsertList s (pre ++ c :: post)).1 := ha
    rw [hsplit] at ha'
    rcases List.mem_append.mp ha' with h' | h'
    · have := (upsertList_keys_origin pre s).1 a h'
      obtain ⟨c', hc', heq⟩ := List.mem_map.mp this
      intro habs
      exact hkpre c' hc' (by rw [heq, habs])
    · rw [hstep] at h'
      have := (upsertList_keys_origin post _).1 a h'
      obtain ⟨c', hc', heq⟩ := List.mem_map.mp this
      intro habs
      exact hkpost c' hc' (by rw [heq, habs])
  · intro u hu
    have hu' : u ∈ (upsertList s (pre ++ c :: post)).2.1 := hu
    rw [hsplit] at hu'
    rcases List.mem_append.mp hu' with h' | h'
    · have := (upsertList_keys_origin pre s).2 u h'
      obtain ⟨c', hc', heq⟩ := List.mem_map.mp this
      intro habs
      exact hkpre c' hc' (by rw [heq, habs])
    · rw [hstep] at h'
      have := (upsertList_keys_origin post _).2 u h'
      obtain ⟨c', hc', heq⟩ := List.mem_map.mp this
      intro habs
      exact hkpost c' hc' (by rw [heq, habs])

/-- C9 witness: the candidate for key `"a"` agrees with the stored
entity on span, confidence, status and value but has different `text`
and `kind`; the stored entity (with its original text `"x"` and kind
`quantity`) is retained and nothing is reported. -/
theorem C9_witness :
    lookupA "a" (upsert
        (⟨[(1, ⟨⟨"a", .quantity, ⟨0, 1⟩, "x".toList, 0, 1, .provisional⟩, 1⟩)],
          [("a", 1)], 1⟩ : StoreState Nat)
        [⟨"a", .email, ⟨0, 1⟩, "y".toList, 0, 1, .provisional⟩]).2.keyToId =
      some 1 ∧
    lookupA 1 (upsert
        (⟨[(1, ⟨⟨"a", .quantity, ⟨0, 1⟩, "x".toList, 0, 1, .provisional⟩, 1⟩)],
          [("a", 1)], 1⟩ : StoreState Nat)
        [⟨"a", .email, ⟨0, 1⟩, "y".toList, 0, 1, .provisional⟩]).2.entitiesById =
      some ⟨⟨"a", .quantity, ⟨0, 1⟩, "x".toList, 0, 1, .provisional⟩, 1⟩ ∧
    (∀ a ∈ (upsert
        (⟨[(1, ⟨⟨"a", .quantity, ⟨0, 1⟩, "x".toList, 0, 1, .provisional⟩, 1⟩)],
          [("a", 1)], 1⟩ : StoreState Nat)
        [⟨"a", .email, ⟨0, 1⟩, "y".toList, 0, 1, .provisional⟩]).1.added,
      a.key ≠ "a") ∧
    (∀ u ∈ (upsert
        (⟨[(1, ⟨⟨"a", .quantity, ⟨0, 1⟩, "x".toList, 0, 1, .provisional⟩, 1⟩)],
          [("a", 1)], 1⟩ : StoreState Nat)
        [⟨"a", .email, ⟨0, 1⟩, "y".toList, 0, 1, .provisional⟩]).1.updated,
      u.key ≠ "a") :=
  C9_upsert_unchanged_frame
    ⟨[(1, ⟨⟨"a", .quantity, ⟨0, 1⟩, "x".toList, 0, 1, .provisional⟩, 1⟩)],
      [("a", 1)], 1⟩
    [⟨"a", .email, ⟨0, 1⟩, "y".toList, 0, 1, .provisional⟩]
    ⟨"a", .email, ⟨0, 1⟩, "y".toList, 0, 1, .provisional⟩ 1
    ⟨⟨"a", .quantity, ⟨0, 1⟩, "x".toList, 0, 1, .provisional⟩, 1⟩
    (by decide) (by decide) (by decide) (by decide) (by decide) (by decide)

/-! ### Runner merge lemmas -/

section RunnerLemmas

variable {V : Type}

theorem removeFold_split (ks : List String)
    (acc : List (String × EntityCandidate V) × List String) :
    ks.foldl (fun p k => (eraseA k p.1, setAdd k p.2)) acc =
      (ks.foldl (fun m k => eraseA k m) acc.1,
        ks.foldl (fun s k => setAdd k s) acc.2) := by
  induction ks generalizing acc with
  | nil => rfl
  | cons k rest ih =>
    simp only [List.foldl_cons]
    exact ih _

theorem lookupA_upsertFold (l : List (EntityCandidate V))
    (m : List (String × EntityCandidate V)) (k : String) :
    lookupA k (l.foldl (fun m c => setA c.key c m) m) =
      match lastWithKey k l with
      | some c => some c
      | none => lookupA k m := by
  induction l generalizing m with
  | nil => rfl
  | cons c rest ih =>
    simp only [List.foldl_cons, lastWithKey]
    rw [ih]
    cases h : lastWithKey k rest with
    | some c' => rfl
    | none =>
      by_cases hk : c.key = k
      · subst hk
        rw [if_pos rfl]
        simp [lookupA_setA_self]
      · rw [if_neg hk]
        simp [lookupA_setA_ne hk]

theorem lookupA_eraseFold_of_none (ks : List String)
    (m : List (String × EntityCandidate V)) (k : String)
    (h : lookupA k m = none) :
    lookupA k (ks.foldl (fun m k' => eraseA k' m) m) = none := by
  induction ks generalizing m with
  | nil => exact h
  | cons k' rest ih =>
    simp only [List.foldl_cons]
    exact ih _ (lookupA_eraseA_of_none h)

theorem keys_nodup_eraseFold (ks : List String)
    {m : List (String × EntityCandidate V)} (h : (m.map Prod.fst).Nodup) :
    ((ks.foldl (fun m k' => eraseA k' m) m).map Prod.fst).Nodup := by
  induction ks generalizing m with
  | nil => exact h
  | cons k' rest ih =>
    simp only [List.foldl_cons]
    exact ih (keys_nodup_eraseA k' h)

theorem lookupA_eraseFold_mem (ks : List String)
    (m : List (String × EntityCandidate V)) (k : String)
    (hk : k ∈ ks) (hnd : (m.map Prod.fst).Nodup) :
    lookupA k (ks.foldl (fun m k' => eraseA k' m) m) = none := by
  induction ks generalizing m with
  | nil => cases hk
  | cons k' rest ih =>
    simp only [List.foldl_cons]
    rcases List.mem_cons.mp hk with rfl | hmem
    · exact lookupA_eraseFold_of_none _ _ _ (lookupA_eraseA_self k hnd)
    · exact ih _ hmem (keys_nodup_eraseA k' hnd)

theorem lookupA_eraseFold_notMem (ks : List String)
    (m : List (String × EntityCandidate V)) (k : String) (hk : k ∉ ks) :
    lookupA k (ks.foldl (fun m k' => eraseA k' m) m) = lookupA k m := by
  induction ks generalizing m with
  | nil => rfl
  | cons k' rest ih =>
    simp only [List.foldl_cons]
    simp only [List.mem_cons] at hk
    push_neg at hk
    rw [ih _ hk.2, lookupA_eraseA_ne (fun he => hk.1 he.symm)]

theorem mem_setAddFold (ks : List String) (s : List String) (k : String) :
    k ∈ ks.foldl (fun s k' => setAdd k' s) s ↔ k ∈ s ∨ k ∈ ks := by
  induction ks generalizing s with
  | nil => simp
  | cons k' rest ih =>
    simp only [List.foldl_cons, ih, mem_setAdd, List.mem_cons]
    tauto

theorem keys_nodup_upsertFold (l : List (EntityCandidate V))
    {m : List (String × EntityCandidate V)} (h : (m.map Prod.fst).Nodup) :
    ((l.foldl (fun m c => setA c.key c m) m).map Prod.fst).Nodup := by
  induction l generalizing m with
  | nil => exact h
  | cons c rest ih =>
    simp only [List.foldl_cons]
    exact ih (keys_nodup_setA c.key c h)

theorem eraseFold_sublist (ks : List String)
    (m : List (String × EntityCandidate V)) :
    (ks.foldl (fun m k' => eraseA k' m) m).Sublist m := by
  induction ks generalizing m with
  | nil => exact List.Sublist.refl m
  | cons k' rest ih =>
    simp only [List.foldl_cons]
    exact (ih _).trans (eraseA_sublist k' m)

theorem kc_upsertFold (l : List (EntityCandidate V))
    {m : List (String × EntityCandidate V)} (h : ∀ p ∈ m, p.2.key = p.1) :
    ∀ p ∈ l.foldl (fun m c => setA c.key c m) m, p.2.key = p.1 := by
  induction l generalizing m with
  | nil => exact h
  | cons c rest ih =>
    simp only [List.foldl_cons]
    refine ih ?_
    intro p hp
    rcases mem_setA hp with rfl | hp'
    · rfl
    · exact h p hp'

/-- `mergeOne` in explicit components: the map after processing one
result. -/
theorem mergeOne_fst (acc : List (String × EntityCandidate V) × List String)
    (r : PluginResult V) :
    (mergeOne acc r).1 =
      (r.remove.getD []).foldl (fun m k' => eraseA k' m)
        ((r.upsert.getD []).foldl (fun m c => setA c.key c m) acc.1) := by
  unfold mergeOne
  cases hu : r.upsert <;> cases hr : r.remove <;>
    simp [removeFold_split]

/-- `mergeOne` in explicit components: the remove set after processing
one result. -/
theorem mergeOne_snd (acc : List (String × EntityCandidate V) × List String)
    (r : PluginResult V) :
    (mergeOne acc r).2 =
      (r.remove.getD []).foldl (fun s k' => setAdd k' s) acc.2 := by
  unfold mergeOne
  cases hu : r.upsert <;> cases hr : r.remove <;>
    simp [removeFold_split]

theorem keys_nodup_process (results : List (PluginResult V)) :
    ∀ acc : List (String × EntityCandidate V) × List String,
      (acc.1.map Prod.fst).Nodup →
      (((results.foldl mergeOne acc).1).map Prod.fst).Nodup := by
  induction results with
  | nil => exact fun acc h => h
  | cons r rest ih =>
    intro acc h
    simp only [List.foldl_cons]
    refine ih _ ?_
    rw [mergeOne_fst]
    exact keys_nodup_eraseFold _ (keys_nodup_upsertFold _ h)

theorem kc_process (results : List (PluginResult V)) :
    ∀ acc : List (String × EntityCandidate V) × List String,
      (∀ p ∈ acc.1, p.2.key = p.1) →
      ∀ p ∈ (results.foldl mergeOne acc).1, p.2.key = p.1 := by
  induction results with
  | nil => exact fun acc h => h
  | cons r rest ih =>
    intro acc h
    simp only [List.foldl_cons]
    refine ih _ ?_
    rw [mergeOne_fst]
    intro p hp
    exact kc_upsertFold _ h p ((eraseFold_sublist _ _).subset hp)

theorem lastWithKey_append (k : String) (xs ys : List (EntityCandidate V)) :
    lastWithKey k (xs ++ ys) =
      match lastWithKey k ys with
      | some c => some c
      | none => lastWithKey k xs := by
  induction xs with
  | nil =>
    show lastWithKey k ys = _
    cases h : lastWithKey k ys <;> rfl
  | cons c rest ih =>
    simp only [List.cons_append, lastWithKey, List.append_eq, ih]
    cases h : lastWithKey k ys <;> rfl

theorem lastWithKey_mem_keys {k : String} {l : List (EntityCandidate V)}
    {c : EntityCandidate V} (h : lastWithKey k l = some c) :
    k ∈ l.map (fun c' => c'.key) := by
  induction l generalizing c with
  | nil => cases h
  | cons c' rest ih =>
    simp only [lastWithKey] at h
    cases hlw : lastWithKey k rest with
    | some c'' =>
      rw [hlw] at h
      exact List.mem_cons_of_mem _ (ih hlw)
    | none =>
      rw [hlw] at h
      by_cases hk : c'.key = k
      · simp [hk]
      · rw [if_neg hk] at h
        cases h

/-- Lemma A: every binding surviving in the merged map is the last
upserted candidate for its key. -/
theorem lookupA_process_lastUpsert (results : List (PluginResult V)) :
    ∀ (k : String) (c : EntityCandidate V),
      lookupA k (results.foldl mergeOne ([], [])).1 = some c →
      lastUpsert k results = some c := by
  induction results using List.reverseRecOn with
  | nil => intro k c h; cases h
  | append_singleton rs r ih =>
    intro k c h
    rw [List.foldl_append] at h
    rw [List.foldl_cons, List.foldl_nil, mergeOne_fst] at h
    have hnd1 : ((((r.upsert.getD []).foldl (fun m c => setA c.key c m)
        (rs.foldl mergeOne ([], [])).1)).map Prod.fst).Nodup :=
      keys_nodup_upsertFold _ (keys_nodup_process rs ([], []) List.nodup_nil)
    have hnotin : k ∉ r.remove.getD [] := by
      intro hk
      rw [lookupA_eraseFold_mem _ _ _ hk hnd1] at h
      cases h
    rw [lookupA_eraseFold_notMem _ _ _ hnotin, lookupA_upsertFold] at h
    unfold lastUpsert
    rw [List.flatMap_append, lastWithKey_append]
    have hflat : [r].flatMap (fun r' => r'.upsert.getD []) = r.upsert.getD [] := by
      simp
    rw [hflat]
    cases hlw : lastWithKey k (r.upsert.getD []) with
    | some c' =>
      rw [hlw] at h
      exact h
    | none =>
      rw [hlw] at h
      exact ih k c h

/-- Lemma B: the accumulated remove set is exactly the union of the
results' remove lists. -/
theorem mem_process_removeSet (results : List (PluginResult V)) :
    ∀ (acc : List (String × EntityCandidate V) × List String) (k : String),
      (k ∈ (results.foldl mergeOne acc).2 ↔
        k ∈ acc.2 ∨ ∃ r ∈ results, k ∈ r.remove.getD []) := by
  induction results with
  | nil => simp
  | cons r rest ih =>
    intro acc k
    rw [List.foldl_cons, ih]
    rw [mergeOne_snd, mem_setAddFold]
    simp only [List.mem_cons]
    constructor
    · rintro (⟨h | h⟩ | ⟨r', hr', hk⟩)
      · exact Or.inl h
      · exact Or.inr ⟨r, Or.inl rfl, h⟩
      · exact Or.inr ⟨r', Or.inr hr', hk⟩
    · rintro (h | ⟨r', hr' | hr', hk⟩)
      · exact Or.inl (Or.inl h)
      · subst hr'
        exact Or.inl (Or.inr hk)
      · exact Or.inr ⟨r', hr', hk⟩

theorem noReupsert_append {l1 l2 : List (PluginResult V)}
    (h : noReupsert (l1 ++ l2)) :
    noReupsert l1 ∧
      ∀ r1 ∈ l1, ∀ k ∈ r1.remove.getD [], ∀ r2 ∈ l2,
        k ∉ (r2.upsert.getD []).map (fun c => c.key) := by
  induction l1 with
  | nil => exact ⟨trivial, by simp⟩
  | cons r t ih =>
    obtain ⟨h1, h2⟩ := h
    obtain ⟨iht, ihp⟩ := ih h2
    refine ⟨⟨fun k hk r' hr' => h1 k hk r' (List.mem_append_left _ hr'), iht⟩, ?_⟩
    intro r1 hr1 k hk r2 hr2
    rcases List.mem_cons.mp hr1 with rfl | hr1'
    · exact h1 k hk r2 (List.mem_append_right _ hr2)
    · exact ihp r1 hr1' k hk r2 hr2

/-- Lemma C: under `noReupsert`, merged map keys and the remove set
are disjoint. -/
theorem process_disjoint (results : List (PluginResult V))
    (H : noReupsert results) :
    ∀ k, k ∈ (results.foldl mergeOne ([], [])).1.map Prod.fst →
      k ∉ (results.foldl mergeOne ([], [])).2 := by
  induction results using List.reverseRecOn with
  | nil => simp
  | append_singleton rs r ih =>
    obtain ⟨Hrs, Hlast⟩ := noReupsert_append H
    intro k hkm hks
    rw [← lookupA_isSome_iff] at hkm
    obtain ⟨c, hc⟩ := Option.isSome_iff_exists.mp hkm
    rw [List.foldl_append, List.foldl_cons, List.foldl_nil, mergeOne_fst] at hc
    have hnd1 : ((((r.upsert.getD []).foldl (fun m c => setA c.key c m)
        (rs.foldl mergeOne ([], [])).1)).map Prod.fst).Nodup :=
      keys_nodup_upsertFold _ (keys_nodup_process rs ([], []) List.nodup_nil)
    have hnotin : k ∉ r.remove.getD [] := by
      intro hk
      rw [lookupA_eraseFold_mem _ _ _ hk hnd1] at hc
      cases hc
    rw [lookupA_eraseFold_notMem _ _ _ hnotin, lookupA_upsertFold] at hc
    rw [List.foldl_append, List.foldl_cons, List.foldl_nil, mergeOne_snd,
      mem_setAddFold] at hks
    rcases hks with hks | hks
    · -- k was removed by some earlier result r1 ∈ rs
      rw [mem_process_removeSet rs ([], []) k] at hks
      rcases hks with hks | ⟨r1, hr1, hk1⟩
      · cases hks
      · cases hlw : lastWithKey k (r.upsert.getD []) with
        | some c' =>
          exact Hlast r1 hr1 k hk1 r (List.mem_singleton.mpr rfl)
            (lastWithKey_mem_keys hlw)
        | none =>
          rw [hlw] at hc
          have hc2 : lookupA k (rs.foldl mergeOne ([], [])).1 = some c := hc
          have hmem : k ∈ (rs.foldl mergeOne ([], [])).1.map Prod.fst := by
            rw [← lookupA_isSome_iff, hc2]
            rfl
          exact ih Hrs k hmem (by
            rw [mem_process_removeSet rs ([], []) k]
            exact Or.inr ⟨r1, hr1, hk1⟩)
    · exact hnotin hks

theorem mergeResults_eq (results : List (PluginResult V)) :
    mergeResults results =
      ⟨some ((results.foldl mergeOne ([], [])).1.map Prod.snd),
        some (results.foldl mergeOne ([], [])).2⟩ := by
  unfold mergeResults
  rcases results.foldl mergeOne ([], []) with ⟨m, s⟩
  rfl

end RunnerLemmas

/-- C7 counterexample: the first result removes key `"k"`, the second
result upserts it again; the merged upsert list contains the `"k"`
candidate while the remove list also contains `"k"`, so the two lists
share a key. -/
theorem C7_counterexample :
    (mergeResults (V := Nat)
        [⟨none, some ["k"]⟩,
         ⟨some [⟨"k", .custom, ⟨0, 1⟩, [], 0, 1, .provisional⟩], none⟩]).upsert =
      some [⟨"k", .custom, ⟨0, 1⟩, [], 0, 1, .provisional⟩] ∧
    (mergeResults (V := Nat)
        [⟨none, some ["k"]⟩,
         ⟨some [⟨"k", .custom, ⟨0, 1⟩, [], 0, 1, .provisional⟩], none⟩]).remove =
      some ["k"] := by
  constructor <;> rfl

/-- C7 (amended): walking the results in order, every candidate in the
merged upsert list is the last candidate upserted for its key; the
merged remove list collects exactly the keys removed by some result;
and a key in the remove set is deleted from the upsert map when the
remove is processed, so the returned upsert and remove lists share no
key provided no result upserts a key that an earlier result removed
(`noReupsert`) — a later re-upsert re-adds the key to both lists. -/
theorem C7_mergeResults_contract {V : Type} (results : List (PluginResult V)) :
    (∀ c ∈ (mergeResults results).upsert.getD [],
      lastUpsert c.key results = some c) ∧
    (∀ k, k ∈ (mergeResults results).remove.getD [] ↔
      ∃ r ∈ results, k ∈ r.remove.getD []) ∧
    (noReupsert results →
      ∀ k, k ∈ ((mergeResults results).upsert.getD []).map (fun c => c.key) →
        k ∉ (mergeResults results).remove.getD []) := by
  rw [mergeResults_eq]
  simp only [Option.getD_some]
  have hkc : ∀ p ∈ (results.foldl mergeOne ([], [])).1, p.2.key = p.1 :=
    kc_process results ([], []) (by intro p hp; cases hp)
  have hnd : (((results.foldl mergeOne ([], [])).1).map Prod.fst).Nodup :=
    keys_nodup_process results ([], []) List.nodup_nil
  refine ⟨?_, ?_, ?_⟩
  · intro c hc
    obtain ⟨p, hp, rfl⟩ := List.mem_map.mp hc
    have hk : p.2.key = p.1 := hkc p hp
    have hl : lookupA p.1 (results.foldl mergeOne ([], [])).1 = some p.2 :=
      lookupA_of_mem_nodup hnd (by rw [← Prod.mk.eta (p := p)] at hp; exact hp)
    rw [hk]
    exact lookupA_process_lastUpsert results p.1 p.2 hl
  · intro k
    rw [mem_process_removeSet results ([], []) k]
    simp
  · intro H k hk
    have hkeys : k ∈ (results.foldl mergeOne ([], [])).1.map Prod.fst := by
      obtain ⟨c, hc, rfl⟩ := List.mem_map.mp hk
      obtain ⟨p, hp, rfl⟩ := List.mem_map.mp hc
      rw [hkc p hp]
      exact List.mem_map_of_mem Prod.fst hp
    exact process_disjoint results H k hkeys

/-- C7 witness: two results, the first upserting key `"a"` and
removing `"z"`, the second upserting `"b"`: the merged map holds the
last upsert for `"a"`, and `"a"` is absent from the remove list. -/
theorem C7_witness :
    lastUpsert "a"
      [(⟨some [⟨"a", .custom, ⟨0, 1⟩, [], 0, 1, .provisional⟩], some ["z"]⟩ :
          PluginResult Nat),
       ⟨some [⟨"b", .custom, ⟨2, 3⟩, [], 0, 1, .provisional⟩], none⟩] =
      some ⟨"a", .custom, ⟨0, 1⟩, [], 0, 1, .provisional⟩ ∧
    "a" ∉ (mergeResults
        [(⟨some [⟨"a", .custom, ⟨0, 1⟩, [], 0, 1, .provisional⟩], some ["z"]⟩ :
            PluginResult Nat),
         ⟨some [⟨"b", .custom, ⟨2, 3⟩, [], 0, 1, .provisional⟩], none⟩]).remove.getD [] := by
  constructor
  · exact (C7_mergeResults_contract
      [(⟨some [⟨"a", .custom, ⟨0, 1⟩, [], 0, 1, .provisional⟩], some ["z"]⟩ :
          PluginResult Nat),
       ⟨some [⟨"b", .custom, ⟨2, 3⟩, [], 0, 1, .provisional⟩], none⟩]).1
      ⟨"a", .custom, ⟨0, 1⟩, [], 0, 1, .provisional⟩ (by decide)
  · exact (C7_mergeResults_contract
      [(⟨some [⟨"a", .custom, ⟨0, 1⟩, [], 0, 1, .provisional⟩], some ["z"]⟩ :
          PluginResult Nat),
       ⟨some [⟨"b", .custom, ⟨2, 3⟩, [], 0, 1, .provisional⟩], none⟩]).2.2
      (by decide) "a" (by decide)

/-! ### Emitter lemmas -/

theorem getListeners_setListeners (s : EmitterState) (c : Channel) (l : List Nat) :
    getListeners (setListeners s c l) c = l := by
  cases c <;> rfl

theorem dispatch_no_onError {V : Type} (beh : HandlerBehavior V) (hs : List Nat)
    (data : EventData V) (onError : String → List (Nat × EventData V))
    (hE : ∀ msg, onError msg = []) :
    dispatch beh hs data onError = hs.map (fun h => (h, data)) := by
  induction hs with
  | nil => rfl
  | cons h t ih =>
    simp only [dispatch, List.flatMap_cons, List.map_cons] at *
    rw [ih]
    cases hbeh : beh h data <;> simp [hE]

theorem map_sublist_dispatch {V : Type} (beh : HandlerBehavior V) (hs : List Nat)
    (data : EventData V) (onError : String → List (Nat × EventData V)) :
    (hs.map (fun h => (h, data))).Sublist (dispatch beh hs data onError) := by
  induction hs with
  | nil => simp [dispatch]
  | cons h t ih =>
    simp only [dispatch, List.flatMap_cons, List.map_cons]
    refine List.Sublist.cons₂ _ ?_
    exact ih.trans (List.sublist_append_right _ _)

theorem mem_dispatch_of_error {V : Type} (beh : HandlerBehavior V) (hs : List Nat)
    (data : EventData V) (onError : String → List (Nat × EventData V))
    (h : Nat) (msg : String) (x : Nat × EventData V)
    (hmem : h ∈ hs) (hbeh : beh h data = some msg) (hx : x ∈ onError msg) :
    x ∈ dispatch beh hs data onError := by
  induction hs with
  | nil => cases hmem
  | cons h' t ih =>
    simp only [dispatch, List.flatMap_cons, List.mem_append, List.mem_cons] at *
    rcases hmem with rfl | hmem
    · rw [hbeh]
      exact Or.inl (Or.inr hx)
    · exact Or.inr (ih hmem)

theorem mem_dispatch_self {V : Type} (beh : HandlerBehavior V) (hs : List Nat)
    (data : EventData V) (onError : String → List (Nat × EventData V))
    (h : Nat) (hmem : h ∈ hs) :
    (h, data) ∈ dispatch beh hs data onError := by
  induction hs with
  | nil => cases hmem
  | cons h' t ih =>
    simp only [dispatch, List.flatMap_cons, List.mem_append, List.mem_cons] at *
    rcases hmem with rfl | hmem
    · exact Or.inl (Or.inl rfl)
    · exact Or.inr (ih hmem)

theorem dispatch_count {V : Type} [DecidableEq V] (beh : HandlerBehavior V)
    (hs : List Nat) (data : EventData V)
    (onError : String → List (Nat × EventData V)) (h : Nat)
    (hE : ∀ msg, ∀ x ∈ onError msg, x.2 ≠ data) :
    (dispatch beh hs data onError).count (h, data) = hs.count h := by
  induction hs with
  | nil => rfl
  | cons h' t ih =>
    show ((h', data) ::
        ((match beh h' data with | some msg => onError msg | none => []) ++
          dispatch beh t data onError)).count (h, data) = (h' :: t).count h
    rw [List.count_cons, List.count_cons, List.count_append, ih]
    have h2 : (match beh h' data with
        | some msg => onError msg
        | none => []).count (h, data) = 0 := by
      cases beh h' data with
      | none => rfl
      | some msg =>
        rw [List.count_eq_zero]
        intro hmem
        exact hE msg _ hmem rfl
    rw [h2]
    by_cases hh : h' = h
    · subst hh; simp
    · simp [hh, Prod.ext_iff]

/-- C8: on a non-diagnostic channel, every registered handler receives
the event in registration order even when other handlers raise; each
handler error is converted into a diagnostic event of severity
`error` with source `emitter` and dispatched to every diagnostic
handler; and an emit on the diagnostic channel delivers the event to
exactly the diagnostic handlers, errors swallowed without any further
dispatch. -/
theorem C8_emit_fault_isolation {V : Type} (beh : HandlerBehavior V)
    (s : EmitterState) (event : Channel) (data : EventData V)
    (hne : event ≠ .diagnostic) :
    ((getListeners s event).map (fun h => (h, data))).Sublist
      (emit beh s event data) ∧
    (∀ h ∈ getListeners s event, ∀ msg, beh h data = some msg →
      ∀ d ∈ s.diagnostic,
        (d, EventData.diag ⟨"error",
            "Error in " ++ channelName event ++ " handler: " ++ msg,
            some "emitter"⟩) ∈ emit beh s event data) ∧
    (∀ data' : EventData V, emit beh s .diagnostic data' =
      s.diagnostic.map (fun d => (d, data'))) := by
  refine ⟨map_sublist_dispatch _ _ _ _, ?_, ?_⟩
  · intro h hmem msg hbeh d hd
    refine mem_dispatch_of_error beh _ data _ h msg _ hmem hbeh ?_
    simp only [if_neg hne]
    exact mem_dispatch_self _ _ _ _ _ hd
  · intro data'
    exact dispatch_no_onError _ _ _ _ (fun _ => if_pos rfl)

/-- C8 witness: three handlers on the `remove` channel where the
second throws, one diagnostic handler: all three receive the remove
event, the diagnostic handler receives the converted error diagnostic,
and a diagnostic emit reaches exactly the diagnostic handler. -/
theorem C8_witness :
    (([(10 : Nat), 11, 12].map
        (fun h => (h, EventData.remove (V := Nat) 1 "k"))).Sublist
      (emit (fun h _ => if h = 11 then some "boom" else none)
        ⟨[], [10, 11, 12], [20]⟩ .remove (EventData.remove 1 "k"))) ∧
    ((20 : Nat), EventData.diag (V := Nat)
        ⟨"error", "Error in " ++ channelName .remove ++ " handler: " ++ "boom",
         some "emitter"⟩) ∈
      emit (fun h _ => if h = 11 then some "boom" else none)
        ⟨[], [10, 11, 12], [20]⟩ .remove (EventData.remove 1 "k") ∧
    emit (fun h _ => if h = 11 then some "boom" else none)
      (⟨[], [10, 11, 12], [20]⟩ : EmitterState) .diagnostic
        (EventData.diag (V := Nat) ⟨"info", "m", none⟩) =
      [20].map (fun d => (d, EventData.diag ⟨"info", "m", none⟩)) := by
  have h := C8_emit_fault_isolation (V := Nat)
    (fun h _ => if h = 11 then some "boom" else none)
    ⟨[], [10, 11, 12], [20]⟩ .remove (EventData.remove 1 "k") (by decide)
  exact ⟨h.1, h.2.1 11 (by decide) "boom" (by decide) 20 (by decide),
    h.2.2 (EventData.diag ⟨"info", "m", none⟩)⟩

/-- C10: registering the same handler twice on a channel is
idempotent: the registry after the second `on` equals the registry
after the first, the handler is stored and counted once, an emit on
the channel (with data of the channel's event type) invokes it exactly
once, and a single `off` removes it entirely. -/
theorem C10_on_idempotent {V : Type} [DecidableEq V] (beh : HandlerBehavior V)
    (s : EmitterState) (c : Channel) (h : Nat) (data : EventData V)
    (hnd : (getListeners s c).Nodup) (hdata : channelOf data = c) :
    emitterOn (emitterOn s c h) c h = emitterOn s c h ∧
    (getListeners (emitterOn s c h) c).count h = 1 ∧
    listenerCount (emitterOn (emitterOn s c h) c h) c =
      listenerCount (emitterOn s c h) c ∧
    (emit beh (emitterOn (emitterOn s c h) c h) c data).count (h, data) = 1 ∧
    h ∉ getListeners (emitterOff (emitterOn (emitterOn s c h) c h) c h) c := by
  have hget : ∀ (s' : EmitterState) l, getListeners (setListeners s' c l) c = l :=
    fun s' l => getListeners_setListeners s' c l
  have hmem : h ∈ setAdd h (getListeners s c) := by
    by_cases hc : h ∈ getListeners s c <;> simp [setAdd, hc]
  have hidem : emitterOn (emitterOn s c h) c h = emitterOn s c h := by
    unfold emitterOn
    rw [hget]
    have hs2 : setAdd h (setAdd h (getListeners s c)) = setAdd h (getListeners s c) := by
      rw [setAdd, if_pos hmem]
    rw [hs2]
    cases c <;> rfl
  have hnd1 : (getListeners (emitterOn s c h) c).Nodup := by
    unfold emitterOn
    rw [hget]
    by_cases hc : h ∈ getListeners s c
    · rwa [setAdd, if_pos hc]
    · rw [setAdd, if_neg hc]
      refine List.Nodup.append hnd (List.nodup_singleton h) ?_
      intro a ha hb
      rw [List.mem_singleton] at hb
      subst hb
      exact hc ha
  have hcount : (getListeners (emitterOn s c h) c).count h = 1 :=
    List.count_eq_one_of_mem hnd1 (by unfold emitterOn; rw [hget]; exact hmem)
  refine ⟨hidem, hcount, by rw [hidem], ?_, ?_⟩
  · rw [hidem]
    unfold emit
    rw [dispatch_count]
    · exact hcount
    · intro msg x hx
      by_cases hc : c = Channel.diagnostic
      · rw [if_pos hc] at hx
        cases hx
      · rw [if_neg hc] at hx
        have : x.2 = handlerErrorDiag c msg := by
          have := dispatch_no_onError beh (emitterOn s c h).diagnostic
            (handlerErrorDiag c msg) (fun _ => []) (fun _ => rfl)
          rw [this] at hx
          obtain ⟨d, _, rfl⟩ := List.mem_map.mp hx
          rfl
        rw [this]
        intro heq
        apply hc
        rw [← hdata, ← heq]
        rfl
  · rw [hidem]
    unfold emitterOff
    rw [hget]
    intro hmem2
    have := List.count_erase_self h (getListeners (emitterOn s c h) c)
    rw [hcount] at this
    have hz : (List.erase (getListeners (emitterOn s c h) c) h).count h = 0 := by
      omega
    rw [List.count_eq_zero] at hz
    exact hz hmem2

/-- C10 witness: the theorem evaluated on a registry with handler 7 on
the `entity` channel: double registration stores and counts 7 once, an
entity emit invokes it once, and one `off` removes it. -/
theorem C10_witness :
    emitterOn (emitterOn initEmitter .entity 7) .entity 7 =
      emitterOn initEmitter .entity 7 ∧
    (getListeners (emitterOn initEmitter .entity 7) .entity).count 7 = 1 ∧
    listenerCount (emitterOn (emitterOn initEmitter .entity 7) .entity 7) .entity =
      listenerCount (emitterOn initEmitter .entity 7) .entity ∧
    (emit (V := Nat) (fun _ _ => none)
        (emitterOn (emitterOn initEmitter .entity 7) .entity 7) .entity
        (EventData.entity ⟨⟨"k", .quantity, ⟨0, 1⟩, "a".toList, 0, 1, .provisional⟩, 3⟩
          false)).count
      (7, EventData.entity ⟨⟨"k", .quantity, ⟨0, 1⟩, "a".toList, 0, 1, .provisional⟩, 3⟩
        false) = 1 ∧
    7 ∉ getListeners
        (emitterOff (emitterOn (emitterOn initEmitter .entity 7) .entity 7) .entity 7)
        .entity := by
  refine C10_on_idempotent _ _ _ _ _ ?_ rfl
  decide

end StreamSense
